import Mathlib

/-!
# ColoringBookUpscaler: the staged recomputation engine of `main.cpp`

A shallow embedding of `src/main.cpp`:

* `cv::Mat` (single channel, 8 bit) is `Mat`: the header fields `rows`, `cols` and the pixel
  rows, carried together with the fact that there are `rows` rows of `cols` pixels each.
  A pixel is a `Nat`; where a statement needs it to be a `uchar` value, at most 255, it says so
  (`Mat.EightBit`).
* `int` is `Int` (signed overflow is undefined in C++ and is not modelled), `uchar` is a `Nat`,
  `double` and `float` are read over exact arithmetic in `ℚ`.
* `std::vector<cv::Mat> res` is `List Mat`; an index outside the vector is a failure (`none`).
* The OpenCV operations whose bodies are not part of the repository (`bilateralFilter`,
  `resize`, `GaussianBlur`, `rectangle`, `getMouseWheelDelta`) are the fields of `OpenCV`, a
  parameter of every definition that calls them; they are total functions, so an exception
  raised inside them is not modelled. The OpenCV operations with a simple meaning
  (`bitwise_xor`, `copyMakeBorder`, the sub-matrix operator) are defined here and return
  `none` where the library raises `cv::Exception`.
* `cv::imshow` only displays; the `imshow` statements, with the expressions they display, have
  no effect on `Parameters` and are left out.
-/

namespace ColoringBookUpscaler

/-! ## Images and rectangles -/

/-- An 8-bit single-channel `cv::Mat`: `rows`, `cols` and the pixels, row by row. -/
structure Mat where
  rows : Nat
  cols : Nat
  data : List (List Nat)
  wf_rows : data.length = rows
  wf_cols : ∀ r ∈ data, r.length = cols
deriving DecidableEq

/-- The pixel read by `image.at<uchar>(y, x)`. -/
def Mat.at (m : Mat) (y x : Nat) : Nat := (m.data.getD y []).getD x 0

/-- The test `cv::Mat::empty()`: no pixel at all. -/
def Mat.empty (m : Mat) : Bool := m.rows == 0 || m.cols == 0

/-- A freshly allocated `rows × cols` image whose pixel at `(y, x)` is `f y x`. -/
def Mat.tabulate (rows cols : Nat) (f : Nat → Nat → Nat) : Mat where
  rows := rows
  cols := cols
  data := (List.range rows).map (fun y => (List.range cols).map (fun x => f y x))
  wf_rows := by simp
  wf_cols := by
    intro r hr
    simp only [List.mem_map, List.mem_range] at hr
    obtain ⟨y, _, rfl⟩ := hr
    simp

/-- A default-constructed (or released) `cv::Mat`: zero rows, zero columns. -/
def Mat.nil : Mat := Mat.tabulate 0 0 (fun _ _ => 0)

/-- The image given by its pixel rows, each cut or zero-filled to `cols` pixels. -/
def Mat.ofRows (cols : Nat) (rs : List (List Nat)) : Mat :=
  Mat.tabulate rs.length cols (fun y x => (rs.getD y []).getD x 0)

/-- The image `cv::Mat(size, type, cv::Scalar(v))` and `cv::Mat::zeros` for `v = 0`. -/
def Mat.const (rows cols v : Nat) : Mat := Mat.tabulate rows cols (fun _ _ => v)

/-- The rectangle `cv::Rect`. -/
structure Rect where
  x : Int
  y : Int
  width : Int
  height : Int
deriving DecidableEq, Repr

/-- The value `cv::Rect::area()`. -/
def Rect.area (r : Rect) : Int := r.width * r.height

/-- The test `cv::Rect::empty()`. -/
def Rect.empty (r : Rect) : Bool := decide (r.width ≤ 0) || decide (r.height ≤ 0)

/-- The size `cv::Size`. -/
structure Size where
  width : Int
  height : Int
deriving DecidableEq, Repr

/-- Conversion of an `int` argument to a `uchar` parameter. -/
def toUchar (v : Int) : Nat := (v % 256).toNat

/-- Conversion `static_cast<int>` of an exact real: truncation toward zero. -/
def truncToInt (q : ℚ) : Int := Int.tdiv q.num q.den

/-- The sub-matrix `image(roi)` (also `cv::Mat(image, roi)`): OpenCV raises an exception unless
the rectangle lies inside the image. -/
def Mat.roi (m : Mat) (r : Rect) : Option Mat :=
  if 0 ≤ r.x ∧ 0 ≤ r.width ∧ r.x + r.width ≤ m.cols ∧
      0 ≤ r.y ∧ 0 ≤ r.height ∧ r.y + r.height ≤ m.rows then
    some (Mat.tabulate r.height.toNat r.width.toNat
      (fun y x => m.at (y + r.y.toNat) (x + r.x.toNat)))
  else none

/-- The call `cv::bitwise_xor(src1, src2, dst)`: OpenCV raises an exception unless both inputs
have the same size. -/
def bitwise_xor (src1 src2 : Mat) : Option Mat :=
  if src1.rows = src2.rows ∧ src1.cols = src2.cols then
    some (Mat.tabulate src2.rows src2.cols (fun y x => src1.at y x ^^^ src2.at y x))
  else none

/-- The call `cv::copyMakeBorder(src, dst, top, bottom, left, right, BORDER_CONSTANT, value)`:
OpenCV raises an exception when a border width is negative. -/
def copyMakeBorder (src : Mat) (top bottom left right : Int) (value : Nat) : Option Mat :=
  if 0 ≤ top ∧ 0 ≤ bottom ∧ 0 ≤ left ∧ 0 ≤ right then
    some (Mat.tabulate (src.rows + top.toNat + bottom.toNat) (src.cols + left.toNat + right.toNat)
      (fun y x =>
        if top.toNat ≤ y ∧ y < top.toNat + src.rows ∧ left.toNat ≤ x ∧ x < left.toNat + src.cols
        then src.at (y - top.toNat) (x - left.toNat) else value))
  else none

/-! ## Geometry: `BoundingBox` -/

/-- The four running extremes `min_x, max_x, min_y, max_y` of `BoundingBox`. -/
structure Extremes where
  min_x : Int
  max_x : Int
  min_y : Int
  max_y : Int
deriving DecidableEq, Repr

/-- The body of the inner loop of `BoundingBox` at pixel `(y, x)`. -/
def BoundingBox.visit (image : Mat) (threshold_min threshold_max : Nat) (y : Nat)
    (s : Extremes) (x : Nat) : Extremes :=
  let p := image.at y x
  if p ≥ threshold_min ∧ p ≤ threshold_max then
    { min_x := if s.min_x > x then x else s.min_x
      max_x := if s.max_x < x then x else s.max_x
      min_y := if s.min_y > y then y else s.min_y
      max_y := if s.max_y < y then y else s.max_y }
  else s

/-- The two nested loops of `BoundingBox`, rows outside and columns inside. -/
def BoundingBox.scan (image : Mat) (threshold_min threshold_max : Nat) : Extremes :=
  (List.range image.rows).foldl
    (fun s y => (List.range image.cols).foldl (BoundingBox.visit image threshold_min threshold_max y) s)
    { min_x := image.cols, max_x := 0, min_y := image.rows, max_y := 0 }

/-- The function `BoundingBox(image, threshold_min, threshold_max, border)`. -/
def BoundingBox (image : Mat) (threshold_min : Nat := 0) (threshold_max : Nat := 255)
    (border : Int := 0) : Rect :=
  let s := BoundingBox.scan image threshold_min threshold_max
  if s.min_x > s.max_x ∨ s.min_y > s.max_y then
    { x := 0, y := 0, width := 0, height := 0 }
  else
    let s : Extremes :=
      if border ≠ 0 then
        { min_x := max (s.min_x - border) 0
          max_x := min (s.max_x + border) ((image.cols : Int) - 1)
          min_y := max (s.min_y - border) 0
          max_y := min (s.max_y + border) ((image.rows : Int) - 1) }
      else s
    { x := s.min_x, y := s.min_y, width := s.max_x - s.min_x + 1, height := s.max_y - s.min_y + 1 }

/-! ## The remaining pixel loops -/

/-- The function `ContrastBrightnessGrayscale(image, a, b)`, its arithmetic read exactly. -/
def ContrastBrightnessGrayscale (image : Mat) (a : ℚ := 1) (b : ℚ := 1 / 2) : Mat :=
  Mat.tabulate image.rows image.cols (fun y x =>
    let color_normalized : ℚ := (image.at y x : ℚ) / 255
    let new_color_normalized : ℚ := (color_normalized - b) * a + b
    let new_color : Int := truncToInt (new_color_normalized * 255)
    let new_color := min new_color 255
    let new_color := max new_color 0
    new_color.toNat)

/-- The function `Gray2BW(image, threshold)`. -/
def Gray2BW (image : Mat) (threshold : Int) : Mat :=
  Mat.tabulate image.rows image.cols (fun y x =>
    if (image.at y x : Int) < threshold then 0 else 255)

/-- The function `new_img_size(input_image, target_image_size)`; `more` is the height when the
height is strictly larger and the width otherwise, `less` is the other side. -/
def new_img_size (input_image : Mat) (target_image_size : Int) : Size :=
  let width : Int := input_image.cols
  let height : Int := input_image.rows
  if height > width then
    { width := truncToInt ((width : ℚ) / (height : ℚ) * (target_image_size : ℚ))
      height := target_image_size }
  else
    { width := target_image_size
      height := truncToInt ((height : ℚ) / (width : ℚ) * (target_image_size : ℚ)) }

/-! ## Pipeline state -/

/-- The record `Parameters`: the stage cache `res`, the overlay mask and the tunable values,
with the defaults of the source (`approximate_resizing_rate` has none there). -/
structure Parameters where
  res : List Mat := []
  lens_rectangle_mask : Mat := Mat.nil
  lens_zoom : ℚ := 1
  target_image_size : Int := 10000
  target_image_size_min : Int := 10
  gaussian_kernel_size_percent : ℚ := 3 / 2
  gaussian_kernel_size : Int := 1
  threshold_black : Int := 0
  threshold_white : Int := 240
  border_in_source : Int := 10
  approximate_resizing_rate : ℚ := 0
  contrast_alpha : Int := 10000
  contrast_beta : Int := 60
  bilateralFilter_d : Int := 15
  bilateralFilter_sigmaColor : Int := 80
  bilateralFilter_sigmaSpace : Int := 80
  binary_threshold_maxval : Int := 127

/-- The OpenCV operations the program calls without defining them. `rectangle` gives every
pixel of the image after drawing (drawing is in place, so the size stays). -/
structure OpenCV where
  bilateralFilter : Mat → Int → ℚ → ℚ → Mat
  resize : Mat → Size → Mat
  GaussianBlur : Mat → Int → Mat
  rectangle : Mat → Rect → Nat → Int → Nat → Nat → Nat
  getMouseWheelDelta : Int → Int

/-- The loop `do --i; while (i >= 0 && param.res[i].empty());` entered with `i = n`. -/
def FindLatestImage.loop (res : List Mat) : Nat → Int
  | 0 => -1
  | i + 1 => if (res.getD i Mat.nil).empty then FindLatestImage.loop res i else (i : Int)

/-- The function `FindLatestImage(param)`: the last non-empty slot, or `-1`. -/
def FindLatestImage (param : Parameters) : Int :=
  FindLatestImage.loop param.res param.res.length

/-- The function `RemoveLensMargin(param, img_index, clear)`: the new state and the returned
flag. -/
def RemoveLensMargin (param : Parameters) (img_index : Int) (clear : Bool) :
    Option (Parameters × Bool) :=
  if !param.lens_rectangle_mask.empty then
    let img_index := if img_index < 0 then FindLatestImage param else img_index
    if img_index ≥ 0 then
      match param.res[img_index.toNat]? with
      | none => none
      | some slot =>
        match bitwise_xor param.lens_rectangle_mask slot with
        | none => none
        | some dst =>
          some ({ param with
                  res := param.res.set img_index.toNat dst
                  lens_rectangle_mask :=
                    if clear then Mat.nil
                    else Mat.const param.lens_rectangle_mask.rows param.lens_rectangle_mask.cols 0 },
                true)
    else some (param, false)
  else some (param, false)

/-- Assignment to `param.res[i]`, inside the vector only. -/
def writeSlot (param : Parameters) (i : Nat) (m : Mat) : Option Parameters :=
  if i < param.res.length then some { param with res := param.res.set i m } else none

/-- The call `param.res.resize(n)`: cut, or fill up with default-constructed images. -/
def vectorResize (res : List Mat) (n : Nat) : List Mat :=
  res.take n ++ List.replicate (n - res.length) Mat.nil

/-! ## Stage transforms -/

/-- The function `process_1`: bilateral filter of slot 0 into slot 1. -/
def process_1 (cv : OpenCV) (param : Parameters) : Option Parameters :=
  match param.res[0]? with
  | none => none
  | some src =>
    writeSlot param 1 (cv.bilateralFilter src param.bilateralFilter_d
      (param.bilateralFilter_sigmaColor : ℚ) (param.bilateralFilter_sigmaSpace : ℚ))

/-- The image computed by `process_2` from slot 1: pad by `border` with 255, then crop to the
bounding box taken with the same border, unless that box is empty. -/
def process_2.image (src : Mat) (border threshold_black threshold_white : Int) : Option Mat :=
  match copyMakeBorder src border border border border 255 with
  | none => none
  | some padded =>
    let bounding_box :=
      BoundingBox padded (toUchar threshold_black) (toUchar threshold_white) border
    if !bounding_box.empty then padded.roi bounding_box else some padded

/-- The function `process_2`. -/
def process_2 (param : Parameters) : Option Parameters :=
  match param.res[1]? with
  | none => none
  | some src =>
    match process_2.image src param.border_in_source param.threshold_black
        param.threshold_white with
    | none => none
    | some dst => writeSlot param 2 dst

/-- The function `process_3`: clamp the target size, record the resizing rate, resize slot 2
into slot 3. -/
def process_3 (cv : OpenCV) (param : Parameters) : Option Parameters :=
  let param := { param with
    target_image_size :=
      if param.target_image_size < param.target_image_size_min then param.target_image_size_min
      else param.target_image_size }
  match param.res[0]? with
  | none => none
  | some src0 =>
    let param := { param with
      approximate_resizing_rate :=
        (param.target_image_size : ℚ) / ((max src0.rows src0.cols : Nat) : ℚ) }
    match param.res[2]? with
    | none => none
    | some src2 =>
      writeSlot param 3 (cv.resize src2 (new_img_size src2
        (param.target_image_size +
          truncToInt (param.approximate_resizing_rate * (param.border_in_source : ℚ) * 2))))

/-- The function `process_4`: force the kernel size odd, pad slot 3 by half of it with 255,
blur into slot 4. -/
def process_4 (cv : OpenCV) (param : Parameters) : Option Parameters :=
  let param := { param with
    gaussian_kernel_size :=
      if Int.tmod param.gaussian_kernel_size 2 = 0 then param.gaussian_kernel_size + 1
      else param.gaussian_kernel_size }
  match param.res[3]? with
  | none => none
  | some src =>
    let half := Int.tdiv param.gaussian_kernel_size 2
    match copyMakeBorder src half half half half 255 with
    | none => none
    | some padded => writeSlot param 4 (cv.GaussianBlur padded param.gaussian_kernel_size)

/-- The function `process_5`: contrast remap of slot 4 into slot 5. -/
def process_5 (param : Parameters) : Option Parameters :=
  match param.res[4]? with
  | none => none
  | some src =>
    writeSlot param 5 (ContrastBrightnessGrayscale src
      ((param.contrast_alpha : ℚ) / 100) ((param.contrast_beta : ℚ) / 100))

/-- The image computed by `process_6` from slot 5: a copy when the bounding box is empty, the
sub-matrix at the bounding box otherwise. -/
def process_6.image (src : Mat) (threshold_black threshold_white : Int) : Option Mat :=
  let bounding_box := BoundingBox src (toUchar threshold_black) (toUchar threshold_white)
  if bounding_box.empty then some src else src.roi bounding_box

/-- The function `process_6`. -/
def process_6 (param : Parameters) : Option Parameters :=
  match param.res[5]? with
  | none => none
  | some src =>
    match process_6.image src param.threshold_black param.threshold_white with
    | none => none
    | some dst => writeSlot param 6 dst

/-- The function `process_7`: binarisation of slot 6 into slot 7. -/
def process_7 (param : Parameters) : Option Parameters :=
  match param.res[6]? with
  | none => none
  | some src => writeSlot param 7 (Gray2BW src param.binary_threshold_maxval)

/-! ## The recompute engine -/

/-- The `switch (stage)` of `process`. -/
def runStage (cv : OpenCV) (stage : Nat) (param : Parameters) : Option Parameters :=
  match stage with
  | 1 => process_1 cv param
  | 2 => process_2 param
  | 3 => process_3 cv param
  | 4 => process_4 cv param
  | 5 => process_5 param
  | 6 => process_6 param
  | 7 => process_7 param
  | _ => some param

/-- The function `process(stage, data)`, run on the parameters together with the list of stage
transforms invoked so far (an invocation counter, appended to where the `switch` dispatches to
one of `process_1`, ..., `process_7`). At `stage = 0` the source reads `param.res[-1]`,
outside the vector. -/
def process (cv : OpenCV) : Nat → Parameters × List Nat → Option (Parameters × List Nat)
  | 0, _ => none
  | stage + 1, (param, calls) =>
    match RemoveLensMargin param (-1) true with
    | none => none
    | some (param, _) =>
      let prerequisite :=
        if param.res.length < stage + 1 ∨ (param.res.getD stage Mat.nil).empty = true then
          process cv stage (param, calls)
        else some (param, calls)
      match prerequisite with
      | none => none
      | some (param, calls) =>
        let param := { param with res := vectorResize param.res (stage + 1 + 1) }
        match runStage cv (stage + 1) param with
        | none => none
        | some param => some (param, if stage + 1 ≤ 7 then calls ++ [stage + 1] else calls)

/-! ## The lens -/

/-- The function `CorrectROI(roi, image)`. -/
def CorrectROI (roi : Rect) (image : Mat) : Rect :=
  let roi := { roi with width := min roi.width image.cols }
  let roi := { roi with height := min roi.height image.rows }
  let roi := { roi with x := max roi.x 0 }
  let roi := { roi with y := max roi.y 0 }
  let roi := { roi with x := min roi.x ((image.cols : Int) - roi.width) }
  let roi := { roi with y := min roi.y ((image.rows : Int) - roi.height) }
  roi

/-- The constant `cv::EVENT_MOUSEMOVE`. -/
def EVENT_MOUSEMOVE : Int := 0

/-- The constant `cv::EVENT_MOUSEWHEEL`. -/
def EVENT_MOUSEWHEEL : Int := 10

/-- The function `CallBackFunc(event, x, y, flags, data)`; `window` is the rectangle that
`cv::getWindowImageRect("Lens")` returns at the time of the event. -/
def CallBackFunc (cv : OpenCV) (window : Rect) (event x y flags : Int) (param : Parameters) :
    Option Parameters :=
  if event = EVENT_MOUSEMOVE ∨ event = EVENT_MOUSEWHEEL then
    let i := FindLatestImage param
    if i ≥ 0 then
      let param := { param with
        lens_zoom :=
          if event = EVENT_MOUSEWHEEL then
            if cv.getMouseWheelDelta flags > 0 then param.lens_zoom * 2
            else param.lens_zoom * (1 / 2)
          else param.lens_zoom }
      let roi := window
      let roi := { roi with width := truncToInt ((roi.width : ℚ) / param.lens_zoom) }
      let roi := { roi with height := truncToInt ((roi.height : ℚ) / param.lens_zoom) }
      let roi := { roi with x := x - Int.tdiv roi.width 2 }
      let roi := { roi with y := y - Int.tdiv roi.height 2 }
      match param.res[i.toNat]? with
      | none => none
      | some image =>
        let roi := CorrectROI roi image
        match RemoveLensMargin param i false with
        | none => none
        | some (param, removed) =>
          match param.res[i.toNat]? with
          | none => none
          | some image =>
            let mask :=
              if !removed then Mat.const image.rows image.cols 0 else param.lens_rectangle_mask
            let mask := Mat.tabulate mask.rows mask.cols
              (cv.rectangle mask roi 255 (Int.tdiv image.cols 200))
            match bitwise_xor mask image with
            | none => none
            | some dst =>
              some { param with res := param.res.set i.toNat dst, lens_rectangle_mask := mask }
    else some param
  else some param

/-- One pointer event delivered to `CallBackFunc`, with the lens window seen at that time. -/
structure LensEvent where
  window : Rect
  event : Int
  x : Int
  y : Int
  flags : Int

/-- A finite sequence of lens updates, in order. -/
def lensUpdates (cv : OpenCV) : List LensEvent → Parameters → Option Parameters
  | [], param => some param
  | e :: es, param =>
    match CallBackFunc cv e.window e.event e.x e.y e.flags param with
    | none => none
    | some param => lensUpdates cv es param

/-! ## Specification vocabulary -/

/-- Pixel `(y, x)` of the image has its intensity in `[lo, hi]`. -/
def Qualifies (image : Mat) (lo hi : Nat) (y x : Nat) : Prop :=
  image.at y x ≥ lo ∧ image.at y x ≤ hi

instance (image : Mat) (lo hi y x : Nat) : Decidable (Qualifies image lo hi y x) := by
  unfold Qualifies; infer_instance

/-- The image has a pixel, inside its bounds, with intensity in `[lo, hi]`. -/
def HasQualifying (image : Mat) (lo hi : Nat) : Prop :=
  ∃ y, y < image.rows ∧ ∃ x, x < image.cols ∧ Qualifies image lo hi y x

instance (image : Mat) (lo hi : Nat) : Decidable (HasQualifying image lo hi) := by
  unfold HasQualifying; infer_instance

/-- What the scan of `BoundingBox` knows once the pixels `seen` have been visited, started
from the extremes `s0`. -/
structure ScanInv (image : Mat) (lo hi : Nat) (s0 s : Extremes) (seen : List (Nat × Nat)) :
    Prop where
  cover : ∀ p ∈ seen, Qualifies image lo hi p.1 p.2 →
    s.min_x ≤ p.2 ∧ (p.2 : Int) ≤ s.max_x ∧ s.min_y ≤ p.1 ∧ (p.1 : Int) ≤ s.max_y
  min_x : s.min_x = s0.min_x ∨ ∃ p ∈ seen, Qualifies image lo hi p.1 p.2 ∧ s.min_x = p.2
  max_x : s.max_x = s0.max_x ∨ ∃ p ∈ seen, Qualifies image lo hi p.1 p.2 ∧ s.max_x = p.2
  min_y : s.min_y = s0.min_y ∨ ∃ p ∈ seen, Qualifies image lo hi p.1 p.2 ∧ s.min_y = p.1
  max_y : s.max_y = s0.max_y ∨ ∃ p ∈ seen, Qualifies image lo hi p.1 p.2 ∧ s.max_y = p.1
  le_min_x : s.min_x ≤ s0.min_x
  le_max_x : s0.max_x ≤ s.max_x
  le_min_y : s.min_y ≤ s0.min_y
  le_max_y : s0.max_y ≤ s.max_y

/-- The pixels visited by the two loops of `BoundingBox`, in order. -/
def BoundingBox.pixels (image : Mat) : List (Nat × Nat) :=
  ((List.range image.rows).map
    (fun y => (List.range image.cols).map (fun x => (y, x)))).flatten

/-- The extremes `s` are exactly those of the qualifying pixels of the image: every qualifying
pixel lies between them and each of the four is reached by a qualifying pixel. -/
structure Tight (image : Mat) (lo hi : Nat) (s : Extremes) : Prop where
  cover : ∀ y x, y < image.rows → x < image.cols → Qualifies image lo hi y x →
    s.min_x ≤ x ∧ (x : Int) ≤ s.max_x ∧ s.min_y ≤ y ∧ (y : Int) ≤ s.max_y
  min_x : ∃ y, y < image.rows ∧ ∃ x, x < image.cols ∧ Qualifies image lo hi y x ∧ s.min_x = x
  max_x : ∃ y, y < image.rows ∧ ∃ x, x < image.cols ∧ Qualifies image lo hi y x ∧ s.max_x = x
  min_y : ∃ y, y < image.rows ∧ ∃ x, x < image.cols ∧ Qualifies image lo hi y x ∧ s.min_y = y
  max_y : ∃ y, y < image.rows ∧ ∃ x, x < image.cols ∧ Qualifies image lo hi y x ∧ s.max_y = y

/-- The two parameters used as padding widths are not negative, as the controls guarantee. -/
def Parameters.InRange (p : Parameters) : Prop :=
  0 ≤ p.border_in_source ∧ 0 ≤ p.gaussian_kernel_size

/-- The three OpenCV filters return a non-empty image when given a non-empty one. -/
def OpenCV.KeepsNonEmpty (cv : OpenCV) : Prop :=
  (∀ m d a b, m.empty = false → (cv.bilateralFilter m d a b).empty = false) ∧
  (∀ m s, m.empty = false → (cv.resize m s).empty = false) ∧
  (∀ m k, m.empty = false → (cv.GaussianBlur m k).empty = false)

/-- What one stage transform did: it wrote `out` into slot `i` and left the other slots and
the overlay mask alone. -/
structure StageEffect (cv : OpenCV) (i : Nat) (q q' : Parameters) (out : Mat) : Prop where
  res : q'.res = q.res.set i out
  mask : q'.lens_rectangle_mask = q.lens_rectangle_mask
  nonempty : cv.KeepsNonEmpty → (q.res.getD (i - 1) Mat.nil).empty = false → out.empty = false
  inRange : q.InRange → q'.InRange

/-- What the last two steps of `process` (the resize of the vector and the stage transform) do
to a cache that holds slot `n`. -/
structure AfterStage (cv : OpenCV) (n : Nat) (p1 p2 : Parameters) (out : Mat) : Prop where
  res : p2.res = p1.res.take (n + 1) ++ [out]
  mask : p2.lens_rectangle_mask = p1.lens_rectangle_mask
  nonempty : cv.KeepsNonEmpty → (p1.res.getD n Mat.nil).empty = false → out.empty = false
  inRange : p1.InRange → p2.InRange

/-- Every slot of the cache is a non-empty image. -/
def AllNonEmpty (res : List Mat) : Prop :=
  ∀ j, j < res.length → (res.getD j Mat.nil).empty = false

/-- A valid overlay-free cache: no overlay mask, slot 0 exists, every slot is non-empty. -/
structure Valid (p : Parameters) : Prop where
  clean : p.lens_rectangle_mask.empty = true
  pos : 1 ≤ p.res.length
  nonempty : AllNonEmpty p.res

/-- What `process N` returned for the valid cache `p` and the invocation list `calls`. -/
structure Recomputed (cv : OpenCV) (N : Nat) (p : Parameters) (calls : List Nat)
    (r : Parameters × List Nat) : Prop where
  calls : r.2 = calls ++ List.range' (min N p.res.length) (N + 1 - min N p.res.length)
  length : r.1.res.length = N + 1
  clean : r.1.lens_rectangle_mask.empty = true
  kept : r.1.res.take (min N p.res.length) = p.res.take (min N p.res.length)
  nonempty : cv.KeepsNonEmpty → AllNonEmpty r.1.res
  inRange : p.InRange → r.1.InRange

/-- A cold cache: exactly one slot, slot 0, which is non-empty, and no overlay mask. -/
def Cold (p : Parameters) : Prop :=
  p.res.length = 1 ∧ (p.res.getD 0 Mat.nil).empty = false ∧ p.lens_rectangle_mask.empty = true

/-- The image `a` with the mask XOR-ed into it, pixel by pixel. -/
def xorInto (mask a : Mat) : Mat :=
  Mat.tabulate a.rows a.cols (fun y x => mask.at y x ^^^ a.at y x)

/-- The cache `res` with overlay mask `mask` is the overlay-free cache `orig` with the mask
XOR-ed into its latest non-empty slot (or `orig` itself when there is no mask). -/
def Overlaid (orig res : List Mat) (mask : Mat) : Prop :=
  (mask.empty = true ∧ res = orig) ∨
  (mask.empty = false ∧ ∃ (i : Nat) (a : Mat),
    FindLatestImage.loop orig orig.length = (i : Int) ∧ orig[i]? = some a ∧
    mask.rows = a.rows ∧ mask.cols = a.cols ∧ res = orig.set i (xorInto mask a))

/-- A cache in which no non-empty slot `i` follows an empty slot `i - 1`. -/
def NoGaps (res : List Mat) : Prop :=
  ∀ i, 1 ≤ i → i < res.length → (res.getD i Mat.nil).empty = false →
    (res.getD (i - 1) Mat.nil).empty = false

/-- The states reached from a cold cache by calls of `process` for stages 1 to 7, between
which the controls may change any parameter (but neither the cache nor the mask). -/
inductive Reachable (cv : OpenCV) : Parameters → Prop
  | cold (p : Parameters) : Cold p → Reachable cv p
  | adjust (p q : Parameters) : Reachable cv p → q.res = p.res →
      q.lens_rectangle_mask = p.lens_rectangle_mask → Reachable cv q
  | process (p : Parameters) (N : Nat) (calls : List Nat) (r : Parameters × List Nat) :
      Reachable cv p → 1 ≤ N → N ≤ 7 → process cv N (p, calls) = some r → Reachable cv r.1

/-- Pixel `(y, x)` lies inside the rectangle. -/
def Rect.Contains (r : Rect) (y x : Nat) : Prop :=
  r.x ≤ x ∧ (x : Int) < r.x + r.width ∧ r.y ≤ y ∧ (y : Int) < r.y + r.height

/-- The rectangle is the tightest one around the qualifying pixels of the image: it contains
every qualifying pixel, and its first column, its last column, its first row and its last row
each hold a qualifying pixel. -/
def TightestBox (image : Mat) (lo hi : Nat) (r : Rect) : Prop :=
  (∀ y x, y < image.rows → x < image.cols → Qualifies image lo hi y x → r.Contains y x) ∧
  (∃ y, y < image.rows ∧ ∃ x, x < image.cols ∧ Qualifies image lo hi y x ∧ (x : Int) = r.x) ∧
  (∃ y, y < image.rows ∧ ∃ x, x < image.cols ∧ Qualifies image lo hi y x ∧
    (x : Int) = r.x + r.width - 1) ∧
  (∃ y, y < image.rows ∧ ∃ x, x < image.cols ∧ Qualifies image lo hi y x ∧ (y : Int) = r.y) ∧
  (∃ y, y < image.rows ∧ ∃ x, x < image.cols ∧ Qualifies image lo hi y x ∧
    (y : Int) = r.y + r.height - 1)

/-- The rectangle `t` widened by `border` pixels on its four sides and clamped to the image:
columns `max (mx - border) 0 .. min (Mx + border) (cols - 1)` and rows
`max (my - border) 0 .. min (My + border) (rows - 1)`, where `t` has the columns `mx .. Mx`
and the rows `my .. My`. -/
def expandClamped (t : Rect) (border : Int) (image : Mat) : Rect :=
  { x := max (t.x - border) 0
    y := max (t.y - border) 0
    width := min (t.x + t.width - 1 + border) ((image.cols : Int) - 1)
      - max (t.x - border) 0 + 1
    height := min (t.y + t.height - 1 + border) ((image.rows : Int) - 1)
      - max (t.y - border) 0 + 1 }

/-- The rectangle lies inside the bounds of the image. -/
def Rect.Inside (r : Rect) (image : Mat) : Prop :=
  0 ≤ r.x ∧ 0 ≤ r.y ∧ r.x + r.width ≤ image.cols ∧ r.y + r.height ≤ image.rows

/-- The rectangle `r` contains the rectangle `t`. -/
def Rect.Covers (r t : Rect) : Prop :=
  r.x ≤ t.x ∧ r.y ≤ t.y ∧ t.x + t.width ≤ r.x + r.width ∧ t.y + t.height ≤ r.y + r.height

instance (res : List Mat) : Decidable (AllNonEmpty res) := by
  unfold AllNonEmpty; infer_instance

instance (p : Parameters) : Decidable (Cold p) := by
  unfold Cold; infer_instance

instance (p : Parameters) : Decidable (Parameters.InRange p) := by
  unfold Parameters.InRange; infer_instance

/-- Every pixel of the image is a `uchar` value, at most 255. -/
def Mat.EightBit (m : Mat) : Prop :=
  ∀ y, y < m.rows → ∀ x, x < m.cols → m.at y x ≤ 255

instance (m : Mat) : Decidable m.EightBit := by
  unfold Mat.EightBit; infer_instance

/-- The intensity that `ContrastBrightnessGrayscale` gives to a pixel of intensity `c`: the
function itself, run on the one-pixel image of intensity `c`. -/
def ContrastBrightnessGrayscale.out (a b : ℚ) (c : Nat) : Nat :=
  (ContrastBrightnessGrayscale (Mat.const 1 1 c) a b).at 0 0

/-! ## Concrete inputs -/

/-- A simple instance of the OpenCV operations: filters that return their input, a
nearest-neighbour resize (the input itself when the requested size is empty), a one-pixel
rectangle outline, and the wheel delta read directly from `flags`. -/
def sampleCV : OpenCV where
  bilateralFilter := fun m _ _ _ => m
  resize := fun m size =>
    if 0 < size.width ∧ 0 < size.height then
      Mat.tabulate size.height.toNat size.width.toNat
        (fun y x => m.at (y * m.rows / size.height.toNat) (x * m.cols / size.width.toNat))
    else m
  GaussianBlur := fun m _ => m
  rectangle := fun m r color _ y x =>
    if (r.x ≤ x ∧ (x : Int) < r.x + r.width ∧ r.y ≤ y ∧ (y : Int) < r.y + r.height) ∧
        ((x : Int) = r.x ∨ (x : Int) + 1 = r.x + r.width ∨ (y : Int) = r.y ∨
          (y : Int) + 1 = r.y + r.height)
    then color else m.at y x
  getMouseWheelDelta := fun flags => flags

/-- A 3 × 4 image: a dark 2 × 2 block on a white ground. -/
def sampleImage : Mat :=
  Mat.ofRows 4 [[255, 255, 255, 255], [255, 10, 20, 255], [255, 30, 40, 255]]

/-- A cold pipeline state on `sampleImage`. -/
def sampleCold : Parameters :=
  { res := [sampleImage], target_image_size := 8, border_in_source := 1 }

/-- A warm pipeline state: slots 0, 1 and 2 hold `sampleImage`, slot 3 is empty. -/
def sampleWarm : Parameters :=
  { res := [sampleImage, sampleImage, sampleImage, Mat.nil], target_image_size := 8,
    border_in_source := 1 }

/-- Two lens events: a pointer move, then a wheel notch upwards. -/
def sampleEvents : List LensEvent :=
  [{ window := { x := 0, y := 0, width := 4, height := 4 }, event := EVENT_MOUSEMOVE,
     x := 2, y := 1, flags := 0 },
   { window := { x := 0, y := 0, width := 4, height := 4 }, event := EVENT_MOUSEWHEEL,
     x := 1, y := 1, flags := 1 }]

/-- An image of 11 rows and 1 column, all pixels 0. -/
def thinStrip : Mat := Mat.const 11 1 0

/-- A pipeline state whose slots 0, 1 and 2 hold `thinStrip`, with border 0 and target size
10, the configured minimum. -/
def thinParameters : Parameters :=
  { res := [thinStrip, thinStrip, thinStrip, Mat.nil], border_in_source := 0,
    target_image_size := 10 }

/-- A pipeline state with five slots, slot 3 holding `sampleImage`, and the even kernel
setting 4. -/
def kernelParameters : Parameters :=
  { res := [sampleImage, sampleImage, sampleImage, sampleImage, Mat.nil],
    gaussian_kernel_size := 4 }

/-- A cold pipeline state on `thinStrip`, with border 0 and target size 10. -/
def thinCold : Parameters :=
  { res := [thinStrip], border_in_source := 0, target_image_size := 10 }

/-! ## Theorems -/

/-! ### Images -/

theorem Mat.tabulate_rows (r c : Nat) (f : Nat → Nat → Nat) : (Mat.tabulate r c f).rows = r := rfl

theorem Mat.tabulate_cols (r c : Nat) (f : Nat → Nat → Nat) : (Mat.tabulate r c f).cols = c := rfl

theorem Mat.at_tabulate (r c : Nat) (f : Nat → Nat → Nat) (y x : Nat) (hy : y < r) (hx : x < c) :
    (Mat.tabulate r c f).at y x = f y x := by
  simp [Mat.at, Mat.tabulate, List.getD, hy, hx]

theorem Mat.eq_of_data {a b : Mat} (hr : a.rows = b.rows) (hc : a.cols = b.cols)
    (hd : a.data = b.data) : a = b := by
  cases a; cases b; simp_all

theorem Mat.eq_tabulate (m : Mat) : m = Mat.tabulate m.rows m.cols m.at := by
  refine Mat.eq_of_data rfl rfl ?_
  apply List.ext_getElem
  · simp [Mat.tabulate, m.wf_rows]
  · intro y h1 h2
    have hy : y < m.rows := by simpa [Mat.tabulate] using h2
    have hlen : (m.data[y]).length = m.cols := m.wf_cols _ (List.getElem_mem _)
    apply List.ext_getElem
    · simp [Mat.tabulate, hlen]
    · intro x h3 h4
      simp [Mat.tabulate, Mat.at, List.getD, h1, h3]

theorem Mat.ext_at {a b : Mat} (hr : a.rows = b.rows) (hc : a.cols = b.cols)
    (h : ∀ y x, y < a.rows → x < a.cols → a.at y x = b.at y x) : a = b := by
  rw [Mat.eq_tabulate a, Mat.eq_tabulate b]
  simp only [Mat.tabulate_rows, Mat.tabulate_cols, ← hr, ← hc]
  refine Mat.eq_of_data rfl rfl ?_
  simp only [Mat.tabulate]
  apply List.map_congr_left
  intro y hy
  apply List.map_congr_left
  intro x hx
  exact h y x (List.mem_range.mp hy) (List.mem_range.mp hx)

/-! ### The scan of `BoundingBox` -/

theorem ScanInv.start (image : Mat) (lo hi : Nat) (s0 : Extremes) :
    ScanInv image lo hi s0 s0 [] :=
  { cover := by simp
    min_x := Or.inl rfl, max_x := Or.inl rfl, min_y := Or.inl rfl, max_y := Or.inl rfl
    le_min_x := le_refl _, le_max_x := le_refl _, le_min_y := le_refl _, le_max_y := le_refl _ }

theorem ScanInv.widen {image : Mat} {lo hi : Nat} {seen : List (Nat × Nat)} {v : Int}
    {f : Nat × Nat → Int} (a : Nat × Nat)
    (h : ∃ p ∈ seen, Qualifies image lo hi p.1 p.2 ∧ v = f p) :
    ∃ p ∈ seen ++ [a], Qualifies image lo hi p.1 p.2 ∧ v = f p := by
  obtain ⟨p, hp, hq, hv⟩ := h
  exact ⟨p, List.mem_append_left _ hp, hq, hv⟩

theorem ScanInv.step {image : Mat} {lo hi : Nat} {s0 s : Extremes} {seen : List (Nat × Nat)}
    (h : ScanInv image lo hi s0 s seen) (y x : Nat) :
    ScanInv image lo hi s0 (BoundingBox.visit image lo hi y s x) (seen ++ [(y, x)]) := by
  by_cases hq : Qualifies image lo hi y x
  · have hv : BoundingBox.visit image lo hi y s x =
        { min_x := if s.min_x > x then x else s.min_x
          max_x := if s.max_x < x then x else s.max_x
          min_y := if s.min_y > y then y else s.min_y
          max_y := if s.max_y < y then y else s.max_y } := by
      unfold BoundingBox.visit
      simp only []
      exact if_pos hq
    have hlast : (y, x) ∈ seen ++ [(y, x)] := by simp
    rw [hv]
    refine ⟨?_, ?_, ?_, ?_, ?_, ?_, ?_, ?_, ?_⟩
    · intro p hp hqp
      rcases List.mem_append.mp hp with hp | hp
      · have := h.cover p hp hqp
        dsimp only
        split_ifs <;> omega
      · have hp' : p = (y, x) := by simpa using hp
        subst hp'
        dsimp only
        split_ifs <;> omega
    · dsimp only
      split_ifs
      · exact Or.inr ⟨(y, x), hlast, hq, rfl⟩
      · exact h.min_x.imp id (ScanInv.widen (f := fun p => (p.2 : Int)) (y, x))
    · dsimp only
      split_ifs
      · exact Or.inr ⟨(y, x), hlast, hq, rfl⟩
      · exact h.max_x.imp id (ScanInv.widen (f := fun p => (p.2 : Int)) (y, x))
    · dsimp only
      split_ifs
      · exact Or.inr ⟨(y, x), hlast, hq, rfl⟩
      · exact h.min_y.imp id (ScanInv.widen (f := fun p => (p.1 : Int)) (y, x))
    · dsimp only
      split_ifs
      · exact Or.inr ⟨(y, x), hlast, hq, rfl⟩
      · exact h.max_y.imp id (ScanInv.widen (f := fun p => (p.1 : Int)) (y, x))
    · have := h.le_min_x
      dsimp only
      split_ifs <;> omega
    · have := h.le_max_x
      dsimp only
      split_ifs <;> omega
    · have := h.le_min_y
      dsimp only
      split_ifs <;> omega
    · have := h.le_max_y
      dsimp only
      split_ifs <;> omega
  · have hv : BoundingBox.visit image lo hi y s x = s := by
      unfold BoundingBox.visit
      simp only []
      exact if_neg hq
    rw [hv]
    refine ⟨?_, ?_, ?_, ?_, ?_, h.le_min_x, h.le_max_x, h.le_min_y, h.le_max_y⟩
    · intro p hp hqp
      rcases List.mem_append.mp hp with hp | hp
      · exact h.cover p hp hqp
      · have hp' : p = (y, x) := by simpa using hp
        subst hp'
        exact absurd hqp hq
    · exact h.min_x.imp id (ScanInv.widen (f := fun p => (p.2 : Int)) (y, x))
    · exact h.max_x.imp id (ScanInv.widen (f := fun p => (p.2 : Int)) (y, x))
    · exact h.min_y.imp id (ScanInv.widen (f := fun p => (p.1 : Int)) (y, x))
    · exact h.max_y.imp id (ScanInv.widen (f := fun p => (p.1 : Int)) (y, x))

theorem ScanInv.row {image : Mat} {lo hi : Nat} {s0 : Extremes} (y : Nat) (xs : List Nat) :
    ∀ (s : Extremes) (seen : List (Nat × Nat)), ScanInv image lo hi s0 s seen →
      ScanInv image lo hi s0 (xs.foldl (BoundingBox.visit image lo hi y) s)
        (seen ++ xs.map (fun x => (y, x))) := by
  induction xs with
  | nil => intro s seen h; simpa using h
  | cons x xs ih =>
    intro s seen h
    have := ih _ _ (h.step y x)
    simpa [List.append_assoc] using this

theorem ScanInv.rows {image : Mat} {lo hi : Nat} {s0 : Extremes} (xs : List Nat)
    (ys : List Nat) :
    ∀ (s : Extremes) (seen : List (Nat × Nat)), ScanInv image lo hi s0 s seen →
      ScanInv image lo hi s0
        (ys.foldl (fun s y => xs.foldl (BoundingBox.visit image lo hi y) s) s)
        (seen ++ (ys.map (fun y => xs.map (fun x => (y, x)))).flatten) := by
  induction ys with
  | nil => intro s seen h; simpa using h
  | cons y ys ih =>
    intro s seen h
    have := ih _ _ (ScanInv.row y xs s seen h)
    simpa [List.append_assoc] using this

theorem BoundingBox.mem_pixels (image : Mat) (p : Nat × Nat) :
    p ∈ BoundingBox.pixels image ↔ p.1 < image.rows ∧ p.2 < image.cols := by
  obtain ⟨y, x⟩ := p
  simp only [BoundingBox.pixels, List.mem_flatten, List.mem_map, List.mem_range]
  constructor
  · rintro ⟨l, ⟨y', hy', rfl⟩, hmem⟩
    simp only [List.mem_map, List.mem_range, Prod.mk.injEq] at hmem
    obtain ⟨x', hx', rfl, rfl⟩ := hmem
    exact ⟨hy', hx'⟩
  · rintro ⟨hy, hx⟩
    exact ⟨_, ⟨y, hy, rfl⟩, by simpa using hx⟩

theorem BoundingBox.scan_inv (image : Mat) (lo hi : Nat) :
    ScanInv image lo hi { min_x := image.cols, max_x := 0, min_y := image.rows, max_y := 0 }
      (BoundingBox.scan image lo hi) (BoundingBox.pixels image) := by
  have := ScanInv.rows (List.range image.cols) (List.range image.rows) _ _
    (ScanInv.start image lo hi
      { min_x := image.cols, max_x := 0, min_y := image.rows, max_y := 0 })
  simpa [BoundingBox.scan, BoundingBox.pixels] using this

theorem BoundingBox.scan_of_none (image : Mat) (lo hi : Nat) (h : ¬ HasQualifying image lo hi) :
    BoundingBox.scan image lo hi =
      { min_x := image.cols, max_x := 0, min_y := image.rows, max_y := 0 } := by
  have inv := BoundingBox.scan_inv image lo hi
  have none : ∀ p ∈ BoundingBox.pixels image, ¬ Qualifies image lo hi p.1 p.2 := by
    intro p hp hq
    rw [BoundingBox.mem_pixels] at hp
    exact h ⟨p.1, hp.1, p.2, hp.2, hq⟩
  have e1 := inv.min_x.resolve_right (fun ⟨p, hp, hq, _⟩ => none p hp hq)
  have e2 := inv.max_x.resolve_right (fun ⟨p, hp, hq, _⟩ => none p hp hq)
  have e3 := inv.min_y.resolve_right (fun ⟨p, hp, hq, _⟩ => none p hp hq)
  have e4 := inv.max_y.resolve_right (fun ⟨p, hp, hq, _⟩ => none p hp hq)
  cases hs : BoundingBox.scan image lo hi
  rw [hs] at e1 e2 e3 e4
  simp_all

theorem BoundingBox.scan_tight (image : Mat) (lo hi : Nat) (h : HasQualifying image lo hi) :
    Tight image lo hi (BoundingBox.scan image lo hi) := by
  have inv := BoundingBox.scan_inv image lo hi
  obtain ⟨y0, hy0, x0, hx0, hq0⟩ := h
  have c0 := inv.cover (y0, x0) ((BoundingBox.mem_pixels image _).mpr ⟨hy0, hx0⟩) hq0
  dsimp only at c0
  have lift : ∀ {v : Int} {f : Nat × Nat → Nat},
      (∃ p ∈ BoundingBox.pixels image, Qualifies image lo hi p.1 p.2 ∧ v = f p) →
      ∃ p : Nat × Nat, p.1 < image.rows ∧ p.2 < image.cols ∧ Qualifies image lo hi p.1 p.2 ∧
        v = f p := by
    rintro v f ⟨p, hp, hq, hv⟩
    rw [BoundingBox.mem_pixels] at hp
    exact ⟨p, hp.1, hp.2, hq, hv⟩
  refine ⟨?_, ?_, ?_, ?_, ?_⟩
  · intro y x hy hx hq
    exact inv.cover (y, x) ((BoundingBox.mem_pixels image _).mpr ⟨hy, hx⟩) hq
  · rcases inv.min_x with e | e
    · dsimp only at e
      omega
    · obtain ⟨p, h1, h2, h3, h4⟩ := lift (f := fun p => p.2) e
      exact ⟨p.1, h1, p.2, h2, h3, h4⟩
  · rcases inv.max_x with e | e
    · dsimp only at e
      exact ⟨y0, hy0, x0, hx0, hq0, by omega⟩
    · obtain ⟨p, h1, h2, h3, h4⟩ := lift (f := fun p => p.2) e
      exact ⟨p.1, h1, p.2, h2, h3, h4⟩
  · rcases inv.min_y with e | e
    · dsimp only at e
      omega
    · obtain ⟨p, h1, h2, h3, h4⟩ := lift (f := fun p => p.1) e
      exact ⟨p.1, h1, p.2, h2, h3, h4⟩
  · rcases inv.max_y with e | e
    · dsimp only at e
      exact ⟨y0, hy0, x0, hx0, hq0, by omega⟩
    · obtain ⟨p, h1, h2, h3, h4⟩ := lift (f := fun p => p.1) e
      exact ⟨p.1, h1, p.2, h2, h3, h4⟩

theorem Tight.bounds {image : Mat} {lo hi : Nat} {s : Extremes} (h : Tight image lo hi s) :
    0 ≤ s.min_x ∧ s.min_x ≤ s.max_x ∧ s.max_x ≤ (image.cols : Int) - 1 ∧
    0 ≤ s.min_y ∧ s.min_y ≤ s.max_y ∧ s.max_y ≤ (image.rows : Int) - 1 := by
  obtain ⟨y1, hy1, x1, hx1, hq1, e1⟩ := h.min_x
  obtain ⟨y2, hy2, x2, hx2, hq2, e2⟩ := h.max_x
  obtain ⟨y3, hy3, x3, hx3, hq3, e3⟩ := h.min_y
  obtain ⟨y4, hy4, x4, hx4, hq4, e4⟩ := h.max_y
  have c1 := h.cover y1 x1 hy1 hx1 hq1
  have c3 := h.cover y3 x3 hy3 hx3 hq3
  omega

theorem Tight.unique {image : Mat} {lo hi : Nat} {s t : Extremes} (hs : Tight image lo hi s)
    (ht : Tight image lo hi t) : s = t := by
  obtain ⟨y1, hy1, x1, hx1, hq1, e1⟩ := hs.min_x
  obtain ⟨y2, hy2, x2, hx2, hq2, e2⟩ := hs.max_x
  obtain ⟨y3, hy3, x3, hx3, hq3, e3⟩ := hs.min_y
  obtain ⟨y4, hy4, x4, hx4, hq4, e4⟩ := hs.max_y
  obtain ⟨y5, hy5, x5, hx5, hq5, e5⟩ := ht.min_x
  obtain ⟨y6, hy6, x6, hx6, hq6, e6⟩ := ht.max_x
  obtain ⟨y7, hy7, x7, hx7, hq7, e7⟩ := ht.min_y
  obtain ⟨y8, hy8, x8, hx8, hq8, e8⟩ := ht.max_y
  have a1 := ht.cover y1 x1 hy1 hx1 hq1
  have a2 := ht.cover y2 x2 hy2 hx2 hq2
  have a3 := ht.cover y3 x3 hy3 hx3 hq3
  have a4 := ht.cover y4 x4 hy4 hx4 hq4
  have a5 := hs.cover y5 x5 hy5 hx5 hq5
  have a6 := hs.cover y6 x6 hy6 hx6 hq6
  have a7 := hs.cover y7 x7 hy7 hx7 hq7
  have a8 := hs.cover y8 x8 hy8 hx8 hq8
  cases s; cases t
  simp only [Extremes.mk.injEq]
  dsimp only at *
  omega

/-- The rectangle returned by `BoundingBox` for the extremes `s` found by the scan. -/
theorem BoundingBox.of_scan (image : Mat) (lo hi : Nat) (border : Int) :
    BoundingBox image lo hi border =
      (let s := BoundingBox.scan image lo hi
       if s.min_x > s.max_x ∨ s.min_y > s.max_y then
         { x := 0, y := 0, width := 0, height := 0 }
       else if border ≠ 0 then
         { x := max (s.min_x - border) 0
           y := max (s.min_y - border) 0
           width := min (s.max_x + border) ((image.cols : Int) - 1) - max (s.min_x - border) 0 + 1
           height := min (s.max_y + border) ((image.rows : Int) - 1) - max (s.min_y - border) 0 + 1 }
       else
         { x := s.min_x, y := s.min_y, width := s.max_x - s.min_x + 1,
           height := s.max_y - s.min_y + 1 }) := by
  unfold BoundingBox
  dsimp only
  split_ifs <;> rfl

theorem BoundingBox.of_tight (image : Mat) (lo hi : Nat) (h : HasQualifying image lo hi) :
    BoundingBox image lo hi 0 =
      { x := (BoundingBox.scan image lo hi).min_x
        y := (BoundingBox.scan image lo hi).min_y
        width := (BoundingBox.scan image lo hi).max_x - (BoundingBox.scan image lo hi).min_x + 1
        height := (BoundingBox.scan image lo hi).max_y - (BoundingBox.scan image lo hi).min_y + 1 } := by
  have b := (BoundingBox.scan_tight image lo hi h).bounds
  rw [BoundingBox.of_scan]
  dsimp only
  rw [if_neg (by omega), if_neg (by simp)]

/-- Without a qualifying pixel `BoundingBox` returns the rectangle `(0, 0, 0, 0)`, for every
image that has a row or a column, and for the image without rows and columns when the border
is positive. -/
theorem BoundingBox.of_none (image : Mat) (lo hi : Nat) (border : Int)
    (h : ¬ HasQualifying image lo hi)
    (hd : image.rows ≠ 0 ∨ image.cols ≠ 0 ∨ 0 < border) :
    BoundingBox image lo hi border = { x := 0, y := 0, width := 0, height := 0 } := by
  rw [BoundingBox.of_scan, BoundingBox.scan_of_none image lo hi h]
  dsimp only
  by_cases h0 : (image.cols : Int) > 0 ∨ (image.rows : Int) > 0
  · rw [if_pos h0]
  · rw [if_neg h0]
    have hb : 0 < border := by omega
    have hc : (image.cols : Int) = 0 := by omega
    have hr : (image.rows : Int) = 0 := by omega
    rw [if_pos (by omega), hc, hr]
    simp only [Rect.mk.injEq]
    omega

/-! ### The rectangle returned by `BoundingBox`, and the crop of stage 6 -/

/-- With `threshold_min > threshold_max` no pixel qualifies. -/
theorem not_hasQualifying_of_gt (image : Mat) (lo hi : Nat) (h : lo > hi) :
    ¬ HasQualifying image lo hi := by
  rintro ⟨y, _, x, _, h1, h2⟩
  omega

/-- C7 (failing input). For the image with zero rows and zero columns, which has no qualifying
pixel whatever the thresholds are, `BoundingBox` with border 0 returns the rectangle
`(0, 0, 1, 1)`: it is not empty and its area is 1, not 0. -/
theorem BoundingBox_zero_by_zero (lo hi : Nat) :
    ¬ HasQualifying Mat.nil lo hi ∧
    BoundingBox Mat.nil lo hi 0 = { x := 0, y := 0, width := 1, height := 1 } ∧
    (BoundingBox Mat.nil lo hi 0).empty = false ∧
    (BoundingBox Mat.nil lo hi 0).area = 1 := by
  have h : ¬ HasQualifying Mat.nil lo hi := by
    rintro ⟨y, hy, _⟩
    exact absurd hy (by simp [Mat.nil, Mat.tabulate])
  have e : BoundingBox Mat.nil lo hi 0 = { x := 0, y := 0, width := 1, height := 1 } := by
    rw [BoundingBox.of_scan, BoundingBox.scan_of_none _ lo hi h]
    simp [Mat.nil, Mat.tabulate]
  refine ⟨h, e, ?_, ?_⟩
  · rw [e]; decide
  · rw [e]; decide

/-- C8. When the image has a pixel with intensity in `[lo, hi]`, the rectangle returned by
`BoundingBox` with border 0 is the tightest one around these pixels: it contains every one of
them, and its first column, last column, first row and last row each hold one. -/
theorem BoundingBox_tightest (image : Mat) (lo hi : Nat) (h : HasQualifying image lo hi) :
    TightestBox image lo hi (BoundingBox image lo hi 0) := by
  have t := BoundingBox.scan_tight image lo hi h
  rw [BoundingBox.of_tight image lo hi h]
  unfold TightestBox Rect.Contains
  dsimp only
  refine ⟨?_, ?_, ?_, ?_, ?_⟩
  · intro y x hy hx hq
    have := t.cover y x hy hx hq
    omega
  · obtain ⟨y, hy, x, hx, hq, e⟩ := t.min_x
    exact ⟨y, hy, x, hx, hq, e.symm⟩
  · obtain ⟨y, hy, x, hx, hq, e⟩ := t.max_x
    exact ⟨y, hy, x, hx, hq, by omega⟩
  · obtain ⟨y, hy, x, hx, hq, e⟩ := t.min_y
    exact ⟨y, hy, x, hx, hq, e.symm⟩
  · obtain ⟨y, hy, x, hx, hq, e⟩ := t.max_y
    exact ⟨y, hy, x, hx, hq, by omega⟩

/-- C9. When the image has a qualifying pixel and `border ≥ 0`, `BoundingBox` returns the
border-0 box widened by `border` on its four sides and clamped to the image; this rectangle
lies inside the image and contains the border-0 box. -/
theorem BoundingBox_border (image : Mat) (lo hi : Nat) (border : Int) (hb : 0 ≤ border)
    (h : HasQualifying image lo hi) :
    BoundingBox image lo hi border = expandClamped (BoundingBox image lo hi 0) border image ∧
    (BoundingBox image lo hi border).Inside image ∧
    (BoundingBox image lo hi border).Covers (BoundingBox image lo hi 0) := by
  have b := (BoundingBox.scan_tight image lo hi h).bounds
  unfold expandClamped Rect.Inside Rect.Covers
  rw [BoundingBox.of_tight image lo hi h, BoundingBox.of_scan image lo hi border]
  dsimp only
  rw [if_neg (by omega)]
  by_cases hz : border = 0
  · subst hz
    rw [if_neg (by simp)]
    simp only [Rect.mk.injEq]
    omega
  · rw [if_pos hz]
    simp only [Rect.mk.injEq]
    have m1 := le_max_left ((BoundingBox.scan image lo hi).min_x - border) 0
    have m2 := le_max_right ((BoundingBox.scan image lo hi).min_x - border) 0
    have m3 := le_max_left ((BoundingBox.scan image lo hi).min_y - border) 0
    have m4 := le_max_right ((BoundingBox.scan image lo hi).min_y - border) 0
    have m5 := min_le_left ((BoundingBox.scan image lo hi).max_x + border) ((image.cols : Int) - 1)
    have m6 := min_le_right ((BoundingBox.scan image lo hi).max_x + border) ((image.cols : Int) - 1)
    have m7 := min_le_left ((BoundingBox.scan image lo hi).max_y + border) ((image.rows : Int) - 1)
    have m8 := min_le_right ((BoundingBox.scan image lo hi).max_y + border) ((image.rows : Int) - 1)
    have n1 : max ((BoundingBox.scan image lo hi).min_x - border) 0
        ≤ (BoundingBox.scan image lo hi).min_x := max_le (by omega) (by omega)
    have n2 : max ((BoundingBox.scan image lo hi).min_y - border) 0
        ≤ (BoundingBox.scan image lo hi).min_y := max_le (by omega) (by omega)
    have n3 : (BoundingBox.scan image lo hi).max_x
        ≤ min ((BoundingBox.scan image lo hi).max_x + border) ((image.cols : Int) - 1) :=
      le_min (by omega) (by omega)
    have n4 : (BoundingBox.scan image lo hi).max_y
        ≤ min ((BoundingBox.scan image lo hi).max_y + border) ((image.rows : Int) - 1) :=
      le_min (by omega) (by omega)
    refine ⟨⟨trivial, trivial, ?_, ?_⟩, ?_, ?_⟩
    · have : (BoundingBox.scan image lo hi).min_x +
          ((BoundingBox.scan image lo hi).max_x - (BoundingBox.scan image lo hi).min_x + 1) - 1
            + border = (BoundingBox.scan image lo hi).max_x + border := by omega
      rw [this]
    · have : (BoundingBox.scan image lo hi).min_y +
          ((BoundingBox.scan image lo hi).max_y - (BoundingBox.scan image lo hi).min_y + 1) - 1
            + border = (BoundingBox.scan image lo hi).max_y + border := by omega
      rw [this]
    · omega
    · omega

theorem Mat.nonempty_iff (m : Mat) : m.empty = false ↔ 0 < m.rows ∧ 0 < m.cols := by
  simp [Mat.empty, Nat.pos_iff_ne_zero]

theorem Rect.not_empty_iff (r : Rect) : r.empty = false ↔ 0 < r.width ∧ 0 < r.height := by
  simp [Rect.empty]

theorem Mat.roi_full (m : Mat) : m.roi { x := 0, y := 0, width := m.cols, height := m.rows } = some m := by
  unfold Mat.roi
  rw [if_pos (by simp)]
  congr 1
  symm
  apply Mat.ext_at
  · simp [Mat.tabulate]
  · simp [Mat.tabulate]
  · intro y x hy hx
    rw [Mat.at_tabulate _ _ _ _ _ (by simpa using hy) (by simpa using hx)]
    simp

/-- Stage 6 on an image with a qualifying pixel: the crop succeeds and the bounding box of the
result is the whole result. -/
theorem process_6_image_of_qualifying (image : Mat) (lo hi : Nat)
    (h : HasQualifying image lo hi) :
    ∃ out, image.roi (BoundingBox image lo hi 0) = some out ∧
      (BoundingBox image lo hi 0).empty = false ∧ out.empty = false ∧
      BoundingBox out lo hi 0 = { x := 0, y := 0, width := out.cols, height := out.rows } := by
  have t := BoundingBox.scan_tight image lo hi h
  have b := t.bounds
  rw [BoundingBox.of_tight image lo hi h]
  generalize hs : BoundingBox.scan image lo hi = s at t b
  obtain ⟨mx, Mx, my, My⟩ := s
  dsimp only at b ⊢
  unfold Mat.roi
  dsimp only
  rw [if_pos (by omega)]
  refine ⟨_, rfl, ?_, ?_, ?_⟩
  · rw [Rect.not_empty_iff]; dsimp only; omega
  · rw [Mat.nonempty_iff]; simp only [Mat.tabulate_rows, Mat.tabulate_cols]; omega
  · set out := Mat.tabulate (My - my + 1).toNat (Mx - mx + 1).toNat
      (fun y x => image.at (y + my.toNat) (x + mx.toNat)) with hout
    have hrows : out.rows = (My - my + 1).toNat := rfl
    have hcols : out.cols = (Mx - mx + 1).toNat := rfl
    have hat : ∀ y x, y < out.rows → x < out.cols →
        out.at y x = image.at (y + my.toNat) (x + mx.toNat) := by
      intro y x hy hx
      exact Mat.at_tabulate _ _ _ y x hy hx
    -- a qualifying pixel of the image inside the box is a qualifying pixel of the crop
    have move : ∀ y x, y < image.rows → x < image.cols → Qualifies image lo hi y x →
        (y - my.toNat) < out.rows ∧ (x - mx.toNat) < out.cols ∧
          Qualifies out lo hi (y - my.toNat) (x - mx.toNat) ∧
          ((y - my.toNat : Nat) : Int) = y - my ∧ ((x - mx.toNat : Nat) : Int) = x - mx := by
      intro y x hy hx hq
      have c := t.cover y x hy hx hq
      dsimp only at c
      have h1 : y - my.toNat < out.rows := by rw [hrows]; omega
      have h2 : x - mx.toNat < out.cols := by rw [hcols]; omega
      refine ⟨h1, h2, ?_, by omega, by omega⟩
      unfold Qualifies
      rw [hat _ _ h1 h2]
      have e1 : y - my.toNat + my.toNat = y := by omega
      have e2 : x - mx.toNat + mx.toNat = x := by omega
      rw [e1, e2]
      exact hq
    have tout : Tight out lo hi
        { min_x := 0, max_x := (out.cols : Int) - 1, min_y := 0, max_y := (out.rows : Int) - 1 } := by
      refine ⟨?_, ?_, ?_, ?_, ?_⟩
      · intro y x hy hx _
        dsimp only
        omega
      · obtain ⟨y, hy, x, hx, hq, e⟩ := t.min_x
        obtain ⟨h1, h2, h3, h4, h5⟩ := move y x hy hx hq
        dsimp only at e ⊢
        exact ⟨_, h1, _, h2, h3, by omega⟩
      · obtain ⟨y, hy, x, hx, hq, e⟩ := t.max_x
        obtain ⟨h1, h2, h3, h4, h5⟩ := move y x hy hx hq
        dsimp only at e ⊢
        exact ⟨_, h1, _, h2, h3, by rw [hcols]; omega⟩
      · obtain ⟨y, hy, x, hx, hq, e⟩ := t.min_y
        obtain ⟨h1, h2, h3, h4, h5⟩ := move y x hy hx hq
        dsimp only at e ⊢
        exact ⟨_, h1, _, h2, h3, by omega⟩
      · obtain ⟨y, hy, x, hx, hq, e⟩ := t.max_y
        obtain ⟨h1, h2, h3, h4, h5⟩ := move y x hy hx hq
        dsimp only at e ⊢
        exact ⟨_, h1, _, h2, h3, by rw [hrows]; omega⟩
    have hq : HasQualifying out lo hi := by
      obtain ⟨y, hy, x, hx, hq, _⟩ := tout.min_x
      exact ⟨y, hy, x, hx, hq⟩
    have := Tight.unique (BoundingBox.scan_tight out lo hi hq) tout
    rw [BoundingBox.of_tight out lo hi hq, this]
    simp

/-- C10, as amended. For every non-empty image and all thresholds, the stage-6 crop returns an
image, and applied to that image it returns it unchanged; when the image has a pixel in
`[black, white]` (so it really is cropped) the bounding box of the result is the full
rectangle `(0, 0, width, height)`. -/
theorem process_6_idempotent (image : Mat) (black white : Int) (hne : image.empty = false) :
    ∃ out, process_6.image image black white = some out ∧
      process_6.image out black white = some out ∧
      (HasQualifying image (toUchar black) (toUchar white) →
        BoundingBox out (toUchar black) (toUchar white) 0 =
          { x := 0, y := 0, width := out.cols, height := out.rows }) := by
  by_cases h : HasQualifying image (toUchar black) (toUchar white)
  · obtain ⟨out, h1, h2, h3, h4⟩ := process_6_image_of_qualifying image _ _ h
    refine ⟨out, ?_, ?_, fun _ => h4⟩
    · unfold process_6.image
      dsimp only
      rw [h2]
      exact h1
    · unfold process_6.image
      dsimp only
      rw [h4]
      have : (Rect.mk 0 0 out.cols out.rows).empty = false := by
        rw [Rect.not_empty_iff]
        rw [Mat.nonempty_iff] at h3
        dsimp only
        omega
      rw [this]
      exact Mat.roi_full out
  · have hd : image.rows ≠ 0 ∨ image.cols ≠ 0 ∨ (0 : Int) < 0 := by
      rw [Mat.nonempty_iff] at hne
      omega
    have e := BoundingBox.of_none image (toUchar black) (toUchar white) 0 h hd
    refine ⟨image, ?_, ?_, fun hq => absurd hq h⟩ <;>
    · unfold process_6.image
      dsimp only
      rw [e]
      rfl

/-- C10 (counterexample). On the one-pixel image of intensity 5 with thresholds 10 and 20 the
stage-6 crop passes the image through, and the bounding box of that output is the empty
rectangle `(0, 0, 0, 0)`, not the full rectangle `(0, 0, 1, 1)`. -/
theorem process_6_passthrough_box :
    process_6.image (Mat.ofRows 1 [[5]]) 10 20 = some (Mat.ofRows 1 [[5]]) ∧
    BoundingBox (Mat.ofRows 1 [[5]]) (toUchar 10) (toUchar 20) 0
      = { x := 0, y := 0, width := 0, height := 0 } ∧
    BoundingBox (Mat.ofRows 1 [[5]]) (toUchar 10) (toUchar 20) 0
      ≠ { x := 0, y := 0, width := (Mat.ofRows 1 [[5]]).cols,
          height := (Mat.ofRows 1 [[5]]).rows } := by
  decide

/-- C10 (witness). The amended statement at a 2 × 3 image with one pixel in range. -/
theorem process_6_idempotent_witness :
    (Mat.ofRows 3 [[200, 7, 200], [200, 200, 200]]).empty = false ∧
    ∃ out, process_6.image (Mat.ofRows 3 [[200, 7, 200], [200, 200, 200]]) 0 100 = some out ∧
      process_6.image out 0 100 = some out ∧
      (HasQualifying (Mat.ofRows 3 [[200, 7, 200], [200, 200, 200]]) (toUchar 0) (toUchar 100) →
        BoundingBox out (toUchar 0) (toUchar 100) 0 =
          { x := 0, y := 0, width := out.cols, height := out.rows }) :=
  ⟨by decide, process_6_idempotent _ 0 100 (by decide)⟩

/-! ### Stage transforms: success and effect -/

theorem slot_some (res : List Mat) (i : Nat) (h : i < res.length) :
    res[i]? = some (res.getD i Mat.nil) := by
  simp [List.getElem?_eq_getElem h]

theorem Mat.roi_dims {m out : Mat} {r : Rect} (h : m.roi r = some out) :
    out.rows = r.height.toNat ∧ out.cols = r.width.toNat := by
  unfold Mat.roi at h
  split_ifs at h
  cases h
  exact ⟨rfl, rfl⟩

theorem Mat.roi_nonempty {m out : Mat} {r : Rect} (h : m.roi r = some out)
    (hr : r.empty = false) : out.empty = false := by
  obtain ⟨h1, h2⟩ := Mat.roi_dims h
  rw [Rect.not_empty_iff] at hr
  rw [Mat.nonempty_iff]
  omega

theorem copyMakeBorder_nonempty {src out : Mat} {t b l r : Int} {v : Nat}
    (h : copyMakeBorder src t b l r v = some out) (hs : src.empty = false) :
    out.empty = false := by
  unfold copyMakeBorder at h
  split_ifs at h
  cases h
  rw [Mat.nonempty_iff] at hs ⊢
  simp only [Mat.tabulate_rows, Mat.tabulate_cols]
  omega

theorem copyMakeBorder_total (src : Mat) (b : Int) (v : Nat) (hb : 0 ≤ b) :
    ∃ out, copyMakeBorder src b b b b v = some out := by
  unfold copyMakeBorder
  rw [if_pos ⟨hb, hb, hb, hb⟩]
  exact ⟨_, rfl⟩

/-- A non-empty rectangle returned by `BoundingBox` for a non-empty image and a border that
is not negative lies inside the image. -/
theorem BoundingBox.inside (image : Mat) (lo hi : Nat) (border : Int) (hb : 0 ≤ border)
    (hne : image.empty = false) (hr : (BoundingBox image lo hi border).empty = false) :
    0 ≤ (BoundingBox image lo hi border).x ∧ 0 ≤ (BoundingBox image lo hi border).width ∧
    (BoundingBox image lo hi border).x + (BoundingBox image lo hi border).width ≤ image.cols ∧
    0 ≤ (BoundingBox image lo hi border).y ∧ 0 ≤ (BoundingBox image lo hi border).height ∧
    (BoundingBox image lo hi border).y + (BoundingBox image lo hi border).height
      ≤ image.rows := by
  by_cases h : HasQualifying image lo hi
  · have b := (BoundingBox.scan_tight image lo hi h).bounds
    rw [Rect.not_empty_iff] at hr
    revert hr
    rw [BoundingBox.of_scan image lo hi border]
    dsimp only
    rw [if_neg (by omega)]
    by_cases hz : border = 0
    · subst hz
      rw [if_neg (by simp)]
      dsimp only
      omega
    · rw [if_pos hz]
      dsimp only
      have m2 := le_max_right ((BoundingBox.scan image lo hi).min_x - border) 0
      have m4 := le_max_right ((BoundingBox.scan image lo hi).min_y - border) 0
      have m6 := min_le_right ((BoundingBox.scan image lo hi).max_x + border)
        ((image.cols : Int) - 1)
      have m8 := min_le_right ((BoundingBox.scan image lo hi).max_y + border)
        ((image.rows : Int) - 1)
      omega
  · have hd : image.rows ≠ 0 ∨ image.cols ≠ 0 ∨ 0 < border := by
      rw [Mat.nonempty_iff] at hne
      omega
    rw [BoundingBox.of_none image lo hi border h hd] at hr
    exact absurd hr (by decide)

theorem Mat.roi_total (m : Mat) (r : Rect)
    (h : 0 ≤ r.x ∧ 0 ≤ r.width ∧ r.x + r.width ≤ m.cols ∧
      0 ≤ r.y ∧ 0 ≤ r.height ∧ r.y + r.height ≤ m.rows) :
    ∃ out, m.roi r = some out := by
  unfold Mat.roi
  rw [if_pos h]
  exact ⟨_, rfl⟩

theorem process_2_image_nonempty {src out : Mat} {border black white : Int}
    (h : process_2.image src border black white = some out) (hs : src.empty = false) :
    out.empty = false := by
  unfold process_2.image at h
  cases hp : copyMakeBorder src border border border border 255 with
  | none => rw [hp] at h; cases h
  | some padded =>
    rw [hp] at h
    dsimp only at h
    have hpad := copyMakeBorder_nonempty hp hs
    cases hb : (BoundingBox padded (toUchar black) (toUchar white) border).empty with
    | true =>
      rw [hb] at h
      cases h
      exact hpad
    | false =>
      rw [hb] at h
      exact Mat.roi_nonempty h hb

theorem process_2_image_total (src : Mat) (border black white : Int) (hb : 0 ≤ border)
    (hs : src.empty = false) : ∃ out, process_2.image src border black white = some out := by
  unfold process_2.image
  obtain ⟨padded, hp⟩ := copyMakeBorder_total src border 255 hb
  rw [hp]
  dsimp only
  have hpad := copyMakeBorder_nonempty hp hs
  cases hr : (BoundingBox padded (toUchar black) (toUchar white) border).empty with
  | true => exact ⟨_, rfl⟩
  | false => exact Mat.roi_total _ _ (BoundingBox.inside padded _ _ border hb hpad hr)

theorem process_6_image_nonempty {src out : Mat} {black white : Int}
    (h : process_6.image src black white = some out) (hs : src.empty = false) :
    out.empty = false := by
  unfold process_6.image at h
  dsimp only at h
  cases hb : (BoundingBox src (toUchar black) (toUchar white)).empty with
  | true =>
    rw [hb] at h
    cases h
    exact hs
  | false =>
    rw [hb] at h
    exact Mat.roi_nonempty h hb

theorem process_6_image_total (src : Mat) (black white : Int) (hs : src.empty = false) :
    ∃ out, process_6.image src black white = some out := by
  unfold process_6.image
  dsimp only
  cases hr : (BoundingBox src (toUchar black) (toUchar white)).empty with
  | true => exact ⟨_, rfl⟩
  | false =>
    exact Mat.roi_total _ _ (BoundingBox.inside src _ _ 0 (le_refl 0) hs hr)

theorem writeSlot_some {p q : Parameters} {i : Nat} {m : Mat} (h : writeSlot p i m = some q) :
    q = { p with res := p.res.set i m } := by
  unfold writeSlot at h
  split_ifs at h
  cases h
  rfl

theorem writeSlot_total (p : Parameters) (i : Nat) (m : Mat) (h : i < p.res.length) :
    ∃ q, writeSlot p i m = some q := by
  unfold writeSlot
  rw [if_pos h]
  exact ⟨_, rfl⟩

theorem process_1_effect (cv : OpenCV) (q q' : Parameters) (hlen : q.res.length = 2)
    (h : process_1 cv q = some q') : ∃ out, StageEffect cv 1 q q' out := by
  unfold process_1 at h
  rw [slot_some q.res 0 (by omega)] at h
  dsimp only at h
  have e := writeSlot_some h
  subst e
  exact ⟨_, rfl, rfl, fun hcv hs => hcv.1 _ _ _ _ hs, id⟩

theorem process_2_effect (cv : OpenCV) (q q' : Parameters) (hlen : q.res.length = 3)
    (h : process_2 q = some q') : ∃ out, StageEffect cv 2 q q' out := by
  unfold process_2 at h
  rw [slot_some q.res 1 (by omega)] at h
  dsimp only at h
  cases hi : process_2.image (q.res.getD 1 Mat.nil) q.border_in_source q.threshold_black
      q.threshold_white with
  | none => rw [hi] at h; cases h
  | some dst =>
    rw [hi] at h
    dsimp only at h
    have e := writeSlot_some h
    subst e
    exact ⟨_, rfl, rfl, fun _ hs => process_2_image_nonempty hi hs, id⟩

theorem process_3_effect (cv : OpenCV) (q q' : Parameters) (hlen : q.res.length = 4)
    (h : process_3 cv q = some q') : ∃ out, StageEffect cv 3 q q' out := by
  unfold process_3 at h
  dsimp only at h
  rw [slot_some q.res 0 (by omega)] at h
  dsimp only at h
  rw [slot_some q.res 2 (by omega)] at h
  dsimp only at h
  have e := writeSlot_some h
  subst e
  exact ⟨_, rfl, rfl, fun hcv hs => hcv.2.1 _ _ hs, id⟩

theorem process_4_effect (cv : OpenCV) (q q' : Parameters) (hlen : q.res.length = 5)
    (h : process_4 cv q = some q') : ∃ out, StageEffect cv 4 q q' out := by
  unfold process_4 at h
  dsimp only at h
  rw [slot_some q.res 3 (by omega)] at h
  dsimp only at h
  split at h
  · cases h
  · rename_i padded hp
    have e := writeSlot_some h
    subst e
    refine ⟨_, rfl, rfl, fun hcv hs => hcv.2.2 _ _ (copyMakeBorder_nonempty hp hs), ?_⟩
    intro hr
    unfold Parameters.InRange at hr ⊢
    dsimp only
    split_ifs <;> omega

theorem process_5_effect (cv : OpenCV) (q q' : Parameters) (hlen : q.res.length = 6)
    (h : process_5 q = some q') : ∃ out, StageEffect cv 5 q q' out := by
  unfold process_5 at h
  rw [slot_some q.res 4 (by omega)] at h
  dsimp only at h
  have e := writeSlot_some h
  subst e
  refine ⟨_, rfl, rfl, fun _ hs => ?_, id⟩
  simpa [ContrastBrightnessGrayscale, Mat.empty, Mat.tabulate] using hs

theorem process_6_effect (cv : OpenCV) (q q' : Parameters) (hlen : q.res.length = 7)
    (h : process_6 q = some q') : ∃ out, StageEffect cv 6 q q' out := by
  unfold process_6 at h
  rw [slot_some q.res 5 (by omega)] at h
  dsimp only at h
  cases hi : process_6.image (q.res.getD 5 Mat.nil) q.threshold_black q.threshold_white with
  | none => rw [hi] at h; cases h
  | some dst =>
    rw [hi] at h
    dsimp only at h
    have e := writeSlot_some h
    subst e
    exact ⟨_, rfl, rfl, fun _ hs => process_6_image_nonempty hi hs, id⟩

theorem process_7_effect (cv : OpenCV) (q q' : Parameters) (hlen : q.res.length = 8)
    (h : process_7 q = some q') : ∃ out, StageEffect cv 7 q q' out := by
  unfold process_7 at h
  rw [slot_some q.res 6 (by omega)] at h
  dsimp only at h
  have e := writeSlot_some h
  subst e
  refine ⟨_, rfl, rfl, fun _ hs => ?_, id⟩
  simpa [Gray2BW, Mat.empty, Mat.tabulate] using hs

/-- Every stage transform, run on a cache of length `i + 1`, writes slot `i` only. -/
theorem runStage_effect (cv : OpenCV) (i : Nat) (q q' : Parameters) (h1 : 1 ≤ i) (h7 : i ≤ 7)
    (hlen : q.res.length = i + 1) (h : runStage cv i q = some q') :
    ∃ out, StageEffect cv i q q' out := by
  interval_cases i
  · exact process_1_effect cv q q' hlen h
  · exact process_2_effect cv q q' hlen h
  · exact process_3_effect cv q q' hlen h
  · exact process_4_effect cv q q' hlen h
  · exact process_5_effect cv q q' hlen h
  · exact process_6_effect cv q q' hlen h
  · exact process_7_effect cv q q' hlen h

/-! ### The recompute engine -/

theorem vectorResize_length (res : List Mat) (n : Nat) : (vectorResize res n).length = n := by
  simp only [vectorResize, List.length_append, List.length_take, List.length_replicate]
  omega

theorem vectorResize_getD (res : List Mat) (n j : Nat) (hj : j < n) (hl : j < res.length) :
    (vectorResize res n).getD j Mat.nil = res.getD j Mat.nil := by
  simp only [vectorResize, List.getD_eq_getElem?_getD]
  rw [List.getElem?_append_left (by simp; omega), List.getElem?_take_of_lt hj]

theorem vectorResize_set (res : List Mat) (n : Nat) (out : Mat) (h : n ≤ res.length) :
    (vectorResize res (n + 1)).set n out = res.take n ++ [out] := by
  apply List.ext_getElem?
  intro j
  rw [List.getElem?_set]
  by_cases hj : n = j
  · subst hj
    rw [if_pos rfl, if_pos (by rw [vectorResize_length]; omega)]
    rw [List.getElem?_append_right (by simp)]
    simp [h]
  · rw [if_neg hj]
    by_cases hlt : j < n
    · rw [List.getElem?_append_left (by simp; omega), List.getElem?_take_of_lt hlt]
      simp only [vectorResize]
      rw [List.getElem?_append_left (by simp; omega), List.getElem?_take_of_lt (by omega)]
    · rw [List.getElem?_eq_none (by rw [vectorResize_length]; omega)]
      rw [List.getElem?_eq_none (by simp; omega)]

theorem RemoveLensMargin_of_clean (p : Parameters) (i : Int) (c : Bool)
    (h : p.lens_rectangle_mask.empty = true) : RemoveLensMargin p i c = some (p, false) := by
  unfold RemoveLensMargin
  simp [h]

/-- One level of `process` on an overlay-free cache. -/
theorem process_succ_of_clean (cv : OpenCV) (n : Nat) (p : Parameters) (calls : List Nat)
    (h : p.lens_rectangle_mask.empty = true) :
    process cv (n + 1) (p, calls) =
      match (if p.res.length < n + 1 ∨ (p.res.getD n Mat.nil).empty = true then
          process cv n (p, calls) else some (p, calls)) with
      | none => none
      | some (p1, c1) =>
        match runStage cv (n + 1) { p1 with res := vectorResize p1.res (n + 1 + 1) } with
        | none => none
        | some p2 => some (p2, if n + 1 ≤ 7 then c1 ++ [n + 1] else c1) := by
  rw [process, RemoveLensMargin_of_clean p (-1) true h]

/-- Every stage transform returns when its input slot is non-empty and the padding widths are
not negative. -/
theorem runStage_total (cv : OpenCV) (i : Nat) (q : Parameters) (h1 : 1 ≤ i) (h7 : i ≤ 7)
    (hlen : q.res.length = i + 1) (hin : (q.res.getD (i - 1) Mat.nil).empty = false)
    (hr : q.InRange) : ∃ q', runStage cv i q = some q' := by
  interval_cases i
  · show ∃ q', process_1 cv q = some q'
    unfold process_1
    rw [slot_some q.res 0 (by omega)]
    exact writeSlot_total _ _ _ (by omega)
  · show ∃ q', process_2 q = some q'
    unfold process_2
    rw [slot_some q.res 1 (by omega)]
    dsimp only
    obtain ⟨dst, hd⟩ := process_2_image_total (q.res.getD 1 Mat.nil) q.border_in_source
      q.threshold_black q.threshold_white hr.1 hin
    rw [hd]
    exact writeSlot_total _ _ _ (by omega)
  · show ∃ q', process_3 cv q = some q'
    unfold process_3
    dsimp only
    rw [slot_some q.res 0 (by omega)]
    dsimp only
    rw [slot_some q.res 2 (by omega)]
    exact writeSlot_total _ _ _ (by dsimp only; omega)
  · show ∃ q', process_4 cv q = some q'
    unfold process_4
    dsimp only
    rw [slot_some q.res 3 (by omega)]
    dsimp only
    have hk : 0 ≤ (if Int.tmod q.gaussian_kernel_size 2 = 0 then q.gaussian_kernel_size + 1
        else q.gaussian_kernel_size) := by
      have := hr.2
      split_ifs <;> omega
    obtain ⟨padded, hp⟩ := copyMakeBorder_total (q.res.getD 3 Mat.nil) _ 255
      (Int.tdiv_nonneg hk (by decide : (0 : Int) ≤ 2))
    rw [hp]
    exact writeSlot_total _ _ _ (by dsimp only; omega)
  · show ∃ q', process_5 q = some q'
    unfold process_5
    rw [slot_some q.res 4 (by omega)]
    exact writeSlot_total _ _ _ (by omega)
  · show ∃ q', process_6 q = some q'
    unfold process_6
    rw [slot_some q.res 5 (by omega)]
    dsimp only
    obtain ⟨dst, hd⟩ := process_6_image_total (q.res.getD 5 Mat.nil) q.threshold_black
      q.threshold_white hin
    rw [hd]
    exact writeSlot_total _ _ _ (by omega)
  · show ∃ q', process_7 q = some q'
    unfold process_7
    rw [slot_some q.res 6 (by omega)]
    exact writeSlot_total _ _ _ (by omega)

theorem runStage_after_resize (cv : OpenCV) (n : Nat) (p1 p2 : Parameters) (h7 : n + 1 ≤ 7)
    (hlen : n + 1 ≤ p1.res.length)
    (h : runStage cv (n + 1) { p1 with res := vectorResize p1.res (n + 1 + 1) } = some p2) :
    ∃ out, AfterStage cv n p1 p2 out := by
  obtain ⟨out, e⟩ := runStage_effect cv (n + 1) _ p2 (by omega) h7
    (by dsimp only; rw [vectorResize_length]) h
  refine ⟨out, ?_, e.mask, ?_, e.inRange⟩
  · rw [e.res]
    exact vectorResize_set p1.res (n + 1) out hlen
  · intro hcv hs
    apply e.nonempty hcv
    dsimp only
    rw [Nat.add_sub_cancel, vectorResize_getD _ _ _ (by omega) (by omega)]
    exact hs

theorem runStage_after_resize_total (cv : OpenCV) (n : Nat) (p1 : Parameters) (h7 : n + 1 ≤ 7)
    (hlen : n + 1 ≤ p1.res.length) (hs : (p1.res.getD n Mat.nil).empty = false)
    (hr : p1.InRange) :
    ∃ p2, runStage cv (n + 1) { p1 with res := vectorResize p1.res (n + 1 + 1) } = some p2 := by
  apply runStage_total cv (n + 1) _ (by omega) h7 (by dsimp only; rw [vectorResize_length])
  · dsimp only
    rw [Nat.add_sub_cancel, vectorResize_getD _ _ _ (by omega) (by omega)]
    exact hs
  · exact hr

theorem allNonEmpty_snoc (res : List Mat) (n : Nat) (out : Mat) (hlen : n ≤ res.length)
    (h : ∀ j, j < n → (res.getD j Mat.nil).empty = false) (ho : out.empty = false) :
    AllNonEmpty (res.take n ++ [out]) := by
  intro j hj
  have hl : (res.take n).length = n := by simp; omega
  simp only [List.length_append, hl, List.length_singleton] at hj
  rw [List.getD_eq_getElem?_getD]
  by_cases hjn : j < n
  · rw [List.getElem?_append_left (by omega), List.getElem?_take_of_lt hjn,
      ← List.getD_eq_getElem?_getD]
    exact h j hjn
  · have : j = n := by omega
    subst this
    rw [List.getElem?_append_right (by omega)]
    simpa [hl] using ho

theorem process_valid (cv : OpenCV) : ∀ (N : Nat), N ≤ 7 → ∀ (p : Parameters)
    (calls : List Nat), Valid p → ∀ r, process cv N (p, calls) = some r →
      Recomputed cv N p calls r := by
  intro N
  induction N with
  | zero =>
    intro _ p calls _ r h
    simp [process] at h
  | succ n ih =>
    intro h7 p calls hv r h
    rw [process_succ_of_clean cv n p calls hv.clean] at h
    simp only [if_pos h7] at h
    by_cases hc : p.res.length < n + 1 ∨ (p.res.getD n Mat.nil).empty = true
    · have hL : p.res.length ≤ n := by
        rcases hc with hc | hc
        · omega
        · by_contra hcon
          have := hv.nonempty n (by omega)
          rw [this] at hc
          cases hc
      rw [if_pos hc] at h
      cases hrec : process cv n (p, calls) with
      | none => rw [hrec] at h; cases h
      | some r1 =>
        obtain ⟨p1, c1⟩ := r1
        rw [hrec] at h
        dsimp only at h
        have F := ih (by omega) p calls hv (p1, c1) hrec
        have hmin : min n p.res.length = p.res.length := by omega
        have hmin2 : min (n + 1) p.res.length = p.res.length := by omega
        cases hst : runStage cv (n + 1) { p1 with res := vectorResize p1.res (n + 1 + 1) } with
        | none => rw [hst] at h; cases h
        | some p2 =>
          rw [hst] at h
          cases h
          have hlen1 : p1.res.length = n + 1 := F.length
          obtain ⟨out, A⟩ := runStage_after_resize cv n p1 p2 h7 (by omega) hst
          have htake : p1.res.take (n + 1) = p1.res := by
            rw [← hlen1]; exact List.take_length _
          refine ⟨?_, ?_, ?_, ?_, ?_, ?_⟩
          · dsimp only
            have := F.calls
            dsimp only at this
            rw [this, hmin, hmin2, List.append_assoc]
            congr 1
            have e : n + 1 + 1 - p.res.length = (n + 1 - p.res.length) + 1 := by omega
            rw [e, List.range'_concat]
            congr 2
            have := hv.pos
            simp
            omega
          · dsimp only
            rw [A.res, htake]
            simp [hlen1]
          · dsimp only
            rw [A.mask]
            exact F.clean
          · dsimp only
            rw [hmin2, A.res, htake, List.take_append_of_le_length (by omega)]
            have := F.kept
            dsimp only at this
            rw [hmin] at this
            exact this
          · intro hcv
            dsimp only
            rw [A.res]
            have N1 := F.nonempty hcv
            dsimp only at N1
            apply allNonEmpty_snoc _ _ _ (by omega)
            · intro j hj
              exact N1 j (by omega)
            · exact A.nonempty hcv (N1 n (by omega))
          · intro hr
            exact A.inRange (F.inRange hr)
    · rw [if_neg hc] at h
      dsimp only at h
      have hL : n + 1 ≤ p.res.length := by
        by_contra hcon
        exact hc (Or.inl (by omega))
      have hs : (p.res.getD n Mat.nil).empty = false := hv.nonempty n (by omega)
      have hmin2 : min (n + 1) p.res.length = n + 1 := by omega
      cases hst : runStage cv (n + 1) { p with res := vectorResize p.res (n + 1 + 1) } with
      | none => rw [hst] at h; cases h
      | some p2 =>
        rw [hst] at h
        cases h
        obtain ⟨out, A⟩ := runStage_after_resize cv n p p2 h7 hL hst
        refine ⟨?_, ?_, ?_, ?_, ?_, A.inRange⟩
        · dsimp only
          rw [hmin2]
          simp
        · dsimp only
          rw [A.res]
          simp
          omega
        · dsimp only
          rw [A.mask]
          exact hv.clean
        · dsimp only
          rw [hmin2, A.res, List.take_append_of_le_length (by simp; omega)]
          simp
        · intro hcv
          dsimp only
          rw [A.res]
          apply allNonEmpty_snoc _ _ _ hL
          · intro j hj
            exact hv.nonempty j (by omega)
          · exact A.nonempty hcv hs

/-- The run of `process (n + 1)` on an overlay-free cache that holds a non-empty slot `n`:
no recursion, only the resize of the vector and the stage transform. -/
theorem process_direct (cv : OpenCV) (n : Nat) (p : Parameters) (calls : List Nat)
    (hclean : p.lens_rectangle_mask.empty = true) (hlen : n + 1 ≤ p.res.length)
    (hs : (p.res.getD n Mat.nil).empty = false) (h7 : n + 1 ≤ 7) :
    process cv (n + 1) (p, calls) =
      match runStage cv (n + 1) { p with res := vectorResize p.res (n + 1 + 1) } with
      | none => none
      | some p2 => some (p2, calls ++ [n + 1]) := by
  rw [process_succ_of_clean cv n p calls hclean, if_neg]
  · simp only [if_pos h7]
  · rintro (h | h)
    · omega
    · rw [hs] at h
      cases h

theorem process_valid_total (cv : OpenCV) (hcv : cv.KeepsNonEmpty) : ∀ (N : Nat), 1 ≤ N →
    N ≤ 7 → ∀ (p : Parameters) (calls : List Nat), Valid p → p.InRange →
      ∃ r, process cv N (p, calls) = some r := by
  intro N
  induction N with
  | zero => intro h; omega
  | succ n ih =>
    intro _ h7 p calls hv hr
    by_cases hL : n + 1 ≤ p.res.length
    · have hs := hv.nonempty n (by omega)
      rw [process_direct cv n p calls hv.clean hL hs h7]
      obtain ⟨p2, h2⟩ := runStage_after_resize_total cv n p h7 hL hs hr
      rw [h2]
      exact ⟨_, rfl⟩
    · have hn : 1 ≤ n := by have := hv.pos; omega
      obtain ⟨r1, h1⟩ := ih hn (by omega) p calls hv hr
      have F := process_valid cv n (by omega) p calls hv r1 h1
      rw [process_succ_of_clean cv n p calls hv.clean, if_pos (Or.inl (by omega)), h1]
      dsimp only
      have N1 := F.nonempty hcv
      obtain ⟨p2, h2⟩ := runStage_after_resize_total cv n r1.1 h7 (by rw [F.length])
        (N1 n (by rw [F.length]; omega)) (F.inRange hr)
      rw [h2]
      exact ⟨_, rfl⟩

theorem valid_of_cold {p : Parameters} (h : Cold p) : Valid p := by
  refine ⟨h.2.2, by rw [h.1], ?_⟩
  intro j hj
  have : j = 0 := by rw [h.1] at hj; omega
  subst this
  exact h.2.1

/-- C1. On a cold cache and for `1 ≤ N ≤ 7`, whenever `process N` returns it has invoked
exactly the stage transforms `1, 2, ..., N`, in this order and each once; and it does return
when the padding parameters are not negative and the OpenCV filters keep images non-empty. -/
theorem process_cold_calls (cv : OpenCV) (N : Nat) (p : Parameters) (h1 : 1 ≤ N) (h7 : N ≤ 7)
    (hc : Cold p) :
    (∀ r, process cv N (p, []) = some r → r.2 = List.range' 1 N) ∧
    (p.InRange → cv.KeepsNonEmpty → ∃ p', process cv N (p, []) = some (p', List.range' 1 N)) := by
  have key : ∀ r, process cv N (p, []) = some r → r.2 = List.range' 1 N := by
    intro r hr
    have F := process_valid cv N h7 p [] (valid_of_cold hc) r hr
    have := F.calls
    rw [hc.1] at this
    rw [this]
    have e1 : min N 1 = 1 := by omega
    have e2 : N + 1 - 1 = N := by omega
    rw [e1, e2]
    rfl
  refine ⟨key, ?_⟩
  intro hr hcv
  obtain ⟨r, h⟩ := process_valid_total cv hcv N h1 h7 p [] (valid_of_cold hc) hr
  refine ⟨r.1, ?_⟩
  rw [h, ← key r h]

/-- C2. Start from a cold cache, with OpenCV filters that keep images non-empty, and take
`1 ≤ M < N ≤ 7`. Whenever `process M` and then `process N` return, the second call has invoked
exactly the stage transforms `M + 1, ..., N`, in this order and each once, and none of
`1..M`; and both calls do return when the padding parameters are not negative. -/
theorem process_after_process_calls (cv : OpenCV) (M N : Nat) (p : Parameters) (hM : 1 ≤ M)
    (hMN : M < N) (hN : N ≤ 7) (hc : Cold p) (hcv : cv.KeepsNonEmpty) :
    (∀ r1 r2, process cv M (p, []) = some r1 → process cv N (r1.1, []) = some r2 →
      r2.2 = List.range' (M + 1) (N - M) ∧ ∀ k, k ≤ M → k ∉ r2.2) ∧
    (p.InRange → ∃ r1 r2, process cv M (p, []) = some r1 ∧
      process cv N (r1.1, []) = some r2) := by
  have state : ∀ r1, process cv M (p, []) = some r1 → Valid r1.1 ∧ r1.1.res.length = M + 1 ∧
      (p.InRange → r1.1.InRange) := by
    intro r1 h
    have F := process_valid cv M (by omega) p [] (valid_of_cold hc) r1 h
    exact ⟨⟨F.clean, by rw [F.length]; omega, F.nonempty hcv⟩, F.length, F.inRange⟩
  constructor
  · intro r1 r2 h1 h2
    obtain ⟨hv, hlen, _⟩ := state r1 h1
    have F := process_valid cv N hN r1.1 [] hv r2 h2
    have e := F.calls
    rw [hlen] at e
    have e1 : min N (M + 1) = M + 1 := by omega
    have e2 : N + 1 - (M + 1) = N - M := by omega
    rw [e1, e2, List.nil_append] at e
    refine ⟨e, ?_⟩
    intro k hk hmem
    rw [e, List.mem_range'_1] at hmem
    omega
  · intro hr
    obtain ⟨r1, h1⟩ := process_valid_total cv hcv M hM (by omega) p [] (valid_of_cold hc) hr
    obtain ⟨hv, _, hin⟩ := state r1 h1
    obtain ⟨r2, h2⟩ := process_valid_total cv hcv N (by omega) hN r1.1 [] hv (hin hr)
    exact ⟨r1, r2, h1, h2⟩

/-- C3. Take `1 ≤ N ≤ 7` and an overlay-free cache whose slots `0..K` are non-empty, with
`K ≥ N - 1`; the slots after `K` are arbitrary. Whenever `process N` returns it has invoked
stage `N` only, the slots `0..N-1` are the same images as before, and the cache has length
`N + 1`; and it does return when the padding parameters are not negative. -/
theorem process_warm_frame (cv : OpenCV) (N K : Nat) (p : Parameters) (h1 : 1 ≤ N) (h7 : N ≤ 7)
    (hclean : p.lens_rectangle_mask.empty = true) (hK : N ≤ K + 1) (hlen : K < p.res.length)
    (hne : ∀ j, j ≤ K → (p.res.getD j Mat.nil).empty = false) :
    (∀ r, process cv N (p, []) = some r →
      r.2 = [N] ∧ r.1.res.length = N + 1 ∧ r.1.res.take N = p.res.take N ∧
      ∀ j, j < N → r.1.res.getD j Mat.nil = p.res.getD j Mat.nil) ∧
    (p.InRange → ∃ r, process cv N (p, []) = some r) := by
  obtain ⟨n, rfl⟩ : ∃ n, N = n + 1 := ⟨N - 1, by omega⟩
  have hs := hne n (by omega)
  rw [process_direct cv n p [] hclean (by omega) hs h7]
  constructor
  · intro r h
    cases hst : runStage cv (n + 1) { p with res := vectorResize p.res (n + 1 + 1) } with
    | none => rw [hst] at h; cases h
    | some p2 =>
      rw [hst] at h
      cases h
      obtain ⟨out, A⟩ := runStage_after_resize cv n p p2 h7 (by omega) hst
      have hl : (p.res.take (n + 1)).length = n + 1 := by simp; omega
      refine ⟨rfl, ?_, ?_, ?_⟩
      · dsimp only; rw [A.res]; simp; omega
      · dsimp only
        rw [A.res, List.take_append_of_le_length (by omega)]
        simp
      · intro j hj
        dsimp only
        rw [A.res, List.getD_eq_getElem?_getD, List.getD_eq_getElem?_getD,
          List.getElem?_append_left (by omega), List.getElem?_take_of_lt hj]
  · intro hr
    obtain ⟨p2, h2⟩ := runStage_after_resize_total cv n p h7 (by omega) hs hr
    rw [h2]
    exact ⟨_, rfl⟩

/-! ### The lens overlay -/

theorem bitwise_xor_of_dims (mask a : Mat) (hr : mask.rows = a.rows) (hc : mask.cols = a.cols) :
    bitwise_xor mask a = some (xorInto mask a) := by
  unfold bitwise_xor
  rw [if_pos ⟨hr, hc⟩]
  rfl

theorem xorInto_xorInto (mask a : Mat) : xorInto mask (xorInto mask a) = a := by
  apply Mat.ext_at
  · rfl
  · rfl
  · intro y x hy hx
    have hy' : y < a.rows := hy
    have hx' : x < a.cols := hx
    unfold xorInto
    simp only [Mat.tabulate_rows, Mat.tabulate_cols]
    rw [Mat.at_tabulate _ _ _ y x hy' hx', Mat.at_tabulate _ _ _ y x hy' hx']
    exact Nat.xor_cancel_left _ _

theorem xorInto_empty (mask a : Mat) : (xorInto mask a).empty = a.empty := rfl

theorem set_of_getElem (l : List Mat) (i : Nat) (a : Mat) (h : l[i]? = some a) :
    l.set i a = l := by
  apply List.ext_getElem?
  intro j
  by_cases hj : i = j
  · subst hj
    rw [List.getElem?_set_self (by
      by_contra hc
      rw [List.getElem?_eq_none (by omega)] at h
      cases h), h]
  · rw [List.getElem?_set_ne hj]

theorem FindLatestImage.loop_congr (a b : List Mat)
    (h : ∀ j, (a.getD j Mat.nil).empty = (b.getD j Mat.nil).empty) (n : Nat) :
    FindLatestImage.loop a n = FindLatestImage.loop b n := by
  induction n with
  | zero => rfl
  | succ n ih => simp only [FindLatestImage.loop, h n, ih]

theorem getD_set_empty (orig : List Mat) (i : Nat) (a x : Mat) (h : orig[i]? = some a)
    (hx : x.empty = a.empty) (j : Nat) :
    ((orig.set i x).getD j Mat.nil).empty = (orig.getD j Mat.nil).empty := by
  rw [List.getD_eq_getElem?_getD, List.getD_eq_getElem?_getD]
  by_cases hj : i = j
  · subst hj
    have hlt : i < orig.length := by
      by_contra hc
      rw [List.getElem?_eq_none (by omega)] at h
      cases h
    rw [List.getElem?_set_self hlt, h]
    exact hx
  · rw [List.getElem?_set_ne hj]

/-- The latest image of an overlaid cache is the latest image of the original cache. -/
theorem Overlaid.latest {orig res : List Mat} {mask : Mat} (h : Overlaid orig res mask) :
    FindLatestImage.loop res res.length = FindLatestImage.loop orig orig.length := by
  rcases h with ⟨_, rfl⟩ | ⟨_, i, a, _, ha, _, _, rfl⟩
  · rfl
  · rw [List.length_set]
    exact FindLatestImage.loop_congr _ _
      (getD_set_empty orig i a _ ha (xorInto_empty mask a)) _

/-- Reconciling an overlaid cache gives back the original cache, whatever index is asked for
(`-1` or the latest image) and whether the mask is released or zeroed. -/
theorem Overlaid.reconcile {orig : List Mat} {p : Parameters}
    (h : Overlaid orig p.res p.lens_rectangle_mask) (img_index : Int) (clear : Bool)
    (hidx : img_index < 0 ∨ img_index = FindLatestImage p) :
    (p.lens_rectangle_mask.empty = true ∧ RemoveLensMargin p img_index clear = some (p, false))
    ∨ (p.lens_rectangle_mask.empty = false ∧
        RemoveLensMargin p img_index clear =
          some ({ p with
                  res := orig
                  lens_rectangle_mask :=
                    if clear then Mat.nil
                    else Mat.const p.lens_rectangle_mask.rows p.lens_rectangle_mask.cols 0 },
                true)) := by
  have hl := h.latest
  rcases h with ⟨he, _⟩ | ⟨he, i, a, hi, ha, hr, hc, hres⟩
  · exact Or.inl ⟨he, RemoveLensMargin_of_clean p img_index clear he⟩
  · refine Or.inr ⟨he, ?_⟩
    have hfind : FindLatestImage p = (i : Int) := by
      unfold FindLatestImage
      rw [hl, hi]
    have hidx' : (if img_index < 0 then FindLatestImage p else img_index) = (i : Int) := by
      rcases hidx with h1 | h1
      · rw [if_pos h1, hfind]
      · rw [h1, hfind, if_neg (by omega)]
    have hlt : i < orig.length := by
      by_contra hcon
      rw [List.getElem?_eq_none (by omega)] at ha
      cases ha
    have hslot : p.res[i]? = some (xorInto p.lens_rectangle_mask a) := by
      rw [hres, List.getElem?_set_self hlt]
    unfold RemoveLensMargin
    simp only [he, Bool.not_false, if_true, hidx']
    rw [if_pos (by omega)]
    simp only [Int.toNat_ofNat, hslot]
    rw [bitwise_xor_of_dims _ (xorInto p.lens_rectangle_mask a) hr hc, xorInto_xorInto]
    simp only []
    congr 2
    rw [hres, List.set_set, set_of_getElem orig i a ha]

theorem Mat.const_rows (r c v : Nat) : (Mat.const r c v).rows = r := rfl

theorem Mat.const_cols (r c v : Nat) : (Mat.const r c v).cols = c := rfl

theorem FindLatestImage.loop_spec (a : List Mat) (n k : Nat)
    (h : FindLatestImage.loop a n = (k : Int)) :
    k < n ∧ (a.getD k Mat.nil).empty = false := by
  induction n with
  | zero => simp [FindLatestImage.loop] at h
  | succ n ih =>
    simp only [FindLatestImage.loop] at h
    split_ifs at h with hc
    · have := ih h
      exact ⟨by omega, this.2⟩
    · have : k = n := by omega
      subst this
      exact ⟨by omega, by simpa using hc⟩

/-- The drawing part of `CallBackFunc`: on the reconciled cache `orig`, whose latest image is
`a` at index `k`, a new mask of the size of `a` is drawn and XOR-ed into slot `k`. -/
theorem Overlaid.draw (orig : List Mat) (k : Nat) (a : Mat) (f : Nat → Nat → Nat)
    (hk : FindLatestImage.loop orig orig.length = (k : Int)) (ha : orig[k]? = some a) :
    bitwise_xor (Mat.tabulate a.rows a.cols f) a
        = some (xorInto (Mat.tabulate a.rows a.cols f) a) ∧
      Overlaid orig (orig.set k (xorInto (Mat.tabulate a.rows a.cols f) a))
        (Mat.tabulate a.rows a.cols f) := by
  refine ⟨bitwise_xor_of_dims _ _ rfl rfl, Or.inr ⟨?_, k, a, hk, ha, rfl, rfl, rfl⟩⟩
  have := (FindLatestImage.loop_spec orig _ k hk).2
  rw [List.getD_eq_getElem?_getD, ha] at this
  exact this

/-- One lens update keeps the cache an overlay of the same original cache, changes nothing
but the cache, the mask and the zoom, and always returns. -/
theorem Overlaid.afterCallBack (cv : OpenCV) (orig : List Mat) (p : Parameters) (window : Rect)
    (event x y flags : Int) (h : Overlaid orig p.res p.lens_rectangle_mask) :
    ∃ R M Z, CallBackFunc cv window event x y flags p =
        some { p with res := R, lens_rectangle_mask := M, lens_zoom := Z } ∧
      Overlaid orig R M := by
  by_cases hev : event = EVENT_MOUSEMOVE ∨ event = EVENT_MOUSEWHEEL
  swap
  · exact ⟨p.res, p.lens_rectangle_mask, p.lens_zoom, by unfold CallBackFunc; rw [if_neg hev], h⟩
  by_cases hpos : FindLatestImage p ≥ 0
  swap
  · exact ⟨p.res, p.lens_rectangle_mask, p.lens_zoom,
      by unfold CallBackFunc; rw [if_pos hev]; dsimp only; rw [if_neg hpos], h⟩
  obtain ⟨k, hk⟩ : ∃ k : Nat, FindLatestImage p = (k : Int) :=
    ⟨(FindLatestImage p).toNat, by omega⟩
  have hko : FindLatestImage.loop orig orig.length = (k : Int) := by
    rw [← h.latest]; exact hk
  obtain ⟨hklt, _⟩ := FindLatestImage.loop_spec orig _ k hko
  have hres_len : p.res.length = orig.length := by
    rcases h with ⟨_, e⟩ | ⟨_, _, _, _, _, _, _, e⟩
    · rw [e]
    · rw [e, List.length_set]
  unfold CallBackFunc
  rw [if_pos hev]
  dsimp only
  rw [if_pos hpos, hk]
  simp only [Int.toNat_ofNat]
  rw [slot_some p.res k (by omega)]
  dsimp only
  generalize (if event = EVENT_MOUSEWHEEL then
      if cv.getMouseWheelDelta flags > 0 then p.lens_zoom * 2 else p.lens_zoom * (1 / 2)
    else p.lens_zoom) = Z0
  generalize CorrectROI _ (p.res.getD k Mat.nil) = roi
  have hfind : (k : Int) = FindLatestImage { p with lens_zoom := Z0 } := hk.symm
  have hrec := Overlaid.reconcile (p := { p with lens_zoom := Z0 }) h (k : Int) false
    (Or.inr hfind)
  have ha : orig[k]? = some (orig.getD k Mat.nil) := slot_some orig k hklt
  rcases h with ⟨he, hres⟩ | ⟨he, i, a, hi, hia, hr, hc, hres⟩
  · rcases hrec with ⟨_, hrec⟩ | ⟨he', _⟩
    swap
    · dsimp only at he'
      rw [he] at he'
      cases he'
    rw [hrec]
    dsimp only
    rw [hres, ha]
    simp only [Bool.not_false, if_true, Mat.const_rows, Mat.const_cols]
    obtain ⟨d1, d2⟩ := Overlaid.draw orig k (orig.getD k Mat.nil)
      (cv.rectangle (Mat.const (orig.getD k Mat.nil).rows (orig.getD k Mat.nil).cols 0) roi 255
        (Int.tdiv (orig.getD k Mat.nil).cols 200)) hko ha
    rw [d1]
    exact ⟨_, _, _, rfl, d2⟩
  · rcases hrec with ⟨he', _⟩ | ⟨_, hrec⟩
    · dsimp only at he'
      rw [he] at he'
      cases he'
    have hik : i = k := by
      have := hi.symm.trans hko
      omega
    subst hik
    rw [hrec]
    dsimp only
    rw [hia]
    simp only [Bool.not_true, Bool.false_eq_true, if_false, Mat.const_rows, Mat.const_cols, hr, hc]
    obtain ⟨d1, d2⟩ := Overlaid.draw orig i a
      (cv.rectangle (Mat.const a.rows a.cols 0) roi 255 (Int.tdiv a.cols 200)) hko hia
    rw [d1]
    exact ⟨_, _, _, rfl, d2⟩

/-- Any sequence of lens updates keeps the cache an overlay of the same original cache,
changes nothing but the cache, the mask and the zoom, and always returns. -/
theorem Overlaid.afterUpdates (cv : OpenCV) (orig : List Mat) (events : List LensEvent) :
    ∀ (p : Parameters), Overlaid orig p.res p.lens_rectangle_mask →
      ∃ R M Z, lensUpdates cv events p =
          some { p with res := R, lens_rectangle_mask := M, lens_zoom := Z } ∧
        Overlaid orig R M := by
  induction events with
  | nil => intro p h; exact ⟨p.res, p.lens_rectangle_mask, p.lens_zoom, rfl, h⟩
  | cons e es ih =>
    intro p h
    obtain ⟨R, M, Z, h1, h2⟩ := Overlaid.afterCallBack cv orig p e.window e.event e.x e.y e.flags h
    obtain ⟨R', M', Z', h3, h4⟩ :=
      ih { p with res := R, lens_rectangle_mask := M, lens_zoom := Z } h2
    refine ⟨R', M', Z', ?_, h4⟩
    rw [ColoringBookUpscaler.lensUpdates, h1]
    exact h3

/-- No stage transform reads or writes the overlay mask or the zoom. -/
theorem runStage_lens (cv : OpenCV) (i : Nat) (p : Parameters) (m : Mat) (z : ℚ) :
    runStage cv i { p with lens_rectangle_mask := m, lens_zoom := z } =
      (runStage cv i p).map (fun q => { q with lens_rectangle_mask := m, lens_zoom := z }) := by
  unfold runStage
  split
  · unfold process_1 writeSlot
    dsimp only
    cases p.res[0]? with
    | none => rfl
    | some src =>
      dsimp only [Option.map]
      split_ifs <;> rfl
  · unfold process_2 writeSlot
    dsimp only
    cases p.res[1]? with
    | none => rfl
    | some src =>
      dsimp only [Option.map]
      cases process_2.image src p.border_in_source p.threshold_black p.threshold_white with
      | none => rfl
      | some dst =>
        dsimp only
        split_ifs <;> rfl
  · unfold process_3 writeSlot
    dsimp only
    cases p.res[0]? with
    | none => rfl
    | some src0 =>
      dsimp only [Option.map]
      cases p.res[2]? with
      | none => rfl
      | some src2 =>
        dsimp only
        split_ifs <;> rfl
  · unfold process_4 writeSlot
    dsimp only
    cases p.res[3]? with
    | none => rfl
    | some src =>
      dsimp only [Option.map]
      cases copyMakeBorder src _ _ _ _ 255 with
      | none => rfl
      | some padded =>
        dsimp only
        split_ifs <;> rfl
  · unfold process_5 writeSlot
    dsimp only
    cases p.res[4]? with
    | none => rfl
    | some src =>
      dsimp only [Option.map]
      split_ifs <;> rfl
  · unfold process_6 writeSlot
    dsimp only
    cases p.res[5]? with
    | none => rfl
    | some src =>
      dsimp only [Option.map]
      cases process_6.image src p.threshold_black p.threshold_white with
      | none => rfl
      | some dst =>
        dsimp only
        split_ifs <;> rfl
  · unfold process_7 writeSlot
    dsimp only
    cases p.res[6]? with
    | none => rfl
    | some src =>
      dsimp only [Option.map]
      split_ifs <;> rfl
  · rfl

/-- On overlay-free caches `process` does not depend on the (empty) mask or on the zoom, and
hands both through. -/
theorem process_lens (cv : OpenCV) (m : Mat) (z : ℚ) (hm : m.empty = true) :
    ∀ (N : Nat) (p : Parameters) (calls : List Nat), p.lens_rectangle_mask.empty = true →
      process cv N ({ p with lens_rectangle_mask := m, lens_zoom := z }, calls) =
        (process cv N (p, calls)).map
          (fun r => ({ r.1 with lens_rectangle_mask := m, lens_zoom := z }, r.2)) := by
  intro N
  induction N with
  | zero => intro p calls _; rfl
  | succ n ih =>
    intro p calls hp
    rw [process_succ_of_clean cv n p calls hp,
      process_succ_of_clean cv n _ calls (show
        ({ p with lens_rectangle_mask := m, lens_zoom := z } : Parameters).lens_rectangle_mask.empty
          = true from hm)]
    dsimp only
    by_cases hc : p.res.length < n + 1 ∨ (p.res.getD n Mat.nil).empty = true
    · rw [if_pos hc, if_pos hc, ih p calls hp]
      cases process cv n (p, calls) with
      | none => rfl
      | some r1 =>
        dsimp only [Option.map]
        have := runStage_lens cv (n + 1) { r1.1 with res := vectorResize r1.1.res (n + 1 + 1) } m z
        dsimp only at this
        rw [this]
        cases runStage cv (n + 1) { r1.1 with res := vectorResize r1.1.res (n + 1 + 1) } <;> rfl
    · rw [if_neg hc, if_neg hc]
      dsimp only
      have := runStage_lens cv (n + 1) { p with res := vectorResize p.res (n + 1 + 1) } m z
      dsimp only at this
      rw [this]
      cases runStage cv (n + 1) { p with res := vectorResize p.res (n + 1 + 1) } <;> rfl

theorem bitwise_xor_empty {m a dst : Mat} (h : bitwise_xor m a = some dst) :
    dst.empty = a.empty := by
  unfold bitwise_xor at h
  split_ifs at h
  cases h
  rfl

/-- What `RemoveLensMargin` leaves behind when it returns: a cache of the same length with the
same empty and non-empty slots, on which a second call changes nothing; and no mask, if the
mask was to be released and the cache holds a non-empty slot. -/
theorem RemoveLensMargin_shape (p p' : Parameters) (b : Bool)
    (h : RemoveLensMargin p (-1) true = some (p', b)) :
    p'.res.length = p.res.length ∧
    (∀ j, (p'.res.getD j Mat.nil).empty = (p.res.getD j Mat.nil).empty) ∧
    RemoveLensMargin p' (-1) true = some (p', false) ∧
    (0 ≤ FindLatestImage p → p'.lens_rectangle_mask.empty = true) := by
  by_cases he : p.lens_rectangle_mask.empty = true
  · rw [RemoveLensMargin_of_clean p _ _ he] at h
    cases h
    exact ⟨rfl, fun _ => rfl, RemoveLensMargin_of_clean p _ _ he, fun _ => he⟩
  · have he' : p.lens_rectangle_mask.empty = false := by simpa using he
    unfold RemoveLensMargin at h
    simp only [he', Bool.not_false, if_true, show ((-1 : Int) < 0) from by decide] at h
    by_cases hpos : FindLatestImage p ≥ 0
    · rw [if_pos hpos] at h
      cases hs : p.res[(FindLatestImage p).toNat]? with
      | none => rw [hs] at h; cases h
      | some slot =>
        rw [hs] at h
        dsimp only at h
        cases hx : bitwise_xor p.lens_rectangle_mask slot with
        | none => rw [hx] at h; cases h
        | some dst =>
          rw [hx] at h
          cases h
          refine ⟨by simp, ?_, RemoveLensMargin_of_clean _ _ _ rfl, fun _ => rfl⟩
          intro j
          exact getD_set_empty p.res _ slot dst hs (bitwise_xor_empty hx) j
    · rw [if_neg hpos] at h
      cases h
      refine ⟨rfl, fun _ => rfl, ?_, fun hc => absurd hc hpos⟩
      unfold RemoveLensMargin
      simp only [he', Bool.not_false, if_true, show ((-1 : Int) < 0) from by decide]
      rw [if_neg hpos]

/-- The first statement of `process` may as well have been run before the call. -/
theorem process_reconciled (cv : OpenCV) (N : Nat) (p p' : Parameters) (b : Bool)
    (calls : List Nat) (h : RemoveLensMargin p (-1) true = some (p', b)) :
    process cv N (p, calls) = process cv N (p', calls) := by
  cases N with
  | zero => rfl
  | succ n =>
    rw [process, process, h, (RemoveLensMargin_shape p p' b h).2.2.1]

theorem process_none_of_reconcile (cv : OpenCV) (N : Nat) (p : Parameters) (calls : List Nat)
    (h : RemoveLensMargin p (-1) true = none) : process cv N (p, calls) = none := by
  cases N with
  | zero => rfl
  | succ n => rw [process, h]

theorem FindLatestImage.nonneg_of_slot (p : Parameters) (j : Nat) (hj : j < p.res.length)
    (h : (p.res.getD j Mat.nil).empty = false) : 0 ≤ FindLatestImage p := by
  unfold FindLatestImage
  generalize p.res.length = n at hj
  induction n with
  | zero => omega
  | succ n ih =>
    simp only [FindLatestImage.loop]
    split_ifs with hc
    · apply ih
      by_contra hcon
      have : j = n := by omega
      subst this
      rw [h] at hc
      cases hc
    · omega

theorem valid_of_reachable (cv : OpenCV) (hcv : cv.KeepsNonEmpty) (p : Parameters)
    (h : Reachable cv p) : Valid p := by
  induction h with
  | cold p hc => exact (valid_of_cold hc)
  | adjust p q _ hres hmask ih =>
    exact ⟨by rw [hmask]; exact ih.clean, by rw [hres]; exact ih.pos,
      by rw [hres]; exact ih.nonempty⟩
  | process p N calls r _ _ h7 hp ih =>
    have F := process_valid cv N h7 p calls ih r hp
    exact ⟨F.clean, by rw [F.length]; omega, F.nonempty hcv⟩

/-- C4. Assume the OpenCV filters keep images non-empty. If slot 0 exists and every slot is
non-empty before `process N`, `1 ≤ N ≤ 7`, then whenever `process N` returns the cache has
the slots `0..N` and all of them are non-empty; it does return when there is no overlay mask
and the padding parameters are not negative. Hence in every state reached from a cold cache
by calls of `process` no non-empty slot follows an empty one. -/
theorem process_keeps_noGaps (cv : OpenCV) (hcv : cv.KeepsNonEmpty) :
    (∀ (N : Nat) (p : Parameters) (calls : List Nat), 1 ≤ N → N ≤ 7 → 1 ≤ p.res.length →
      AllNonEmpty p.res →
      (∀ r, process cv N (p, calls) = some r →
        r.1.res.length = N + 1 ∧ AllNonEmpty r.1.res ∧ NoGaps r.1.res) ∧
      (p.lens_rectangle_mask.empty = true → p.InRange →
        ∃ r, process cv N (p, calls) = some r)) ∧
    (∀ p, Reachable cv p → NoGaps p.res ∧ AllNonEmpty p.res ∧ 1 ≤ p.res.length) := by
  constructor
  · intro N p calls h1 h7 hpos hne
    constructor
    · intro r hr
      cases hrm : RemoveLensMargin p (-1) true with
      | none => rw [process_none_of_reconcile cv N p calls hrm] at hr; cases hr
      | some pb =>
        obtain ⟨p', b⟩ := pb
        rw [process_reconciled cv N p p' b calls hrm] at hr
        obtain ⟨s1, s2, _, s4⟩ := RemoveLensMargin_shape p p' b hrm
        have hv : Valid p' := by
          refine ⟨s4 (FindLatestImage.nonneg_of_slot p 0 (by omega) (hne 0 (by omega))),
            by omega, ?_⟩
          intro j hj
          rw [s2 j]
          exact hne j (by omega)
        have F := process_valid cv N h7 p' calls hv r hr
        have hall := F.nonempty hcv
        exact ⟨F.length, hall, fun i _ hi _ => hall (i - 1) (by omega)⟩
    · intro hclean hr
      exact process_valid_total cv hcv N h1 h7 p calls ⟨hclean, hpos, hne⟩ hr
  · intro p hp
    have hv := valid_of_reachable cv hcv p hp
    exact ⟨fun i _ hi _ => hv.nonempty (i - 1) (by omega), hv.nonempty, hv.pos⟩

/-- C5. On a valid overlay-free cache every finite sequence of lens updates returns, and
`process N` run after it returns exactly what `process N` returns without it, except that the
zoom is the one left by the updates and the mask is some empty image: the same cache, the
same invocations, the same parameters, and no overlay mask. With padding parameters that are
not negative and OpenCV filters that keep images non-empty both runs do return. -/
theorem lens_transparent (cv : OpenCV) (p : Parameters) (events : List LensEvent) (N : Nat)
    (calls : List Nat) (h1 : 1 ≤ N) (h7 : N ≤ 7) (hv : Valid p) :
    ∃ q, lensUpdates cv events p = some q ∧
      (∃ m, m.empty = true ∧
        process cv N (q, calls) =
          (process cv N (p, calls)).map
            (fun r => ({ r.1 with lens_rectangle_mask := m, lens_zoom := q.lens_zoom }, r.2))) ∧
      (∀ r, process cv N (q, calls) = some r →
        r.1.lens_rectangle_mask.empty = true ∧
        ∃ r0, process cv N (p, calls) = some r0 ∧ r.1.res = r0.1.res ∧ r.2 = r0.2) ∧
      (p.InRange → cv.KeepsNonEmpty → ∃ r, process cv N (q, calls) = some r) := by
  obtain ⟨R, M, Z, hq, ho⟩ :=
    Overlaid.afterUpdates cv p.res events p (Or.inl ⟨hv.clean, rfl⟩)
  have key : ∃ m, m.empty = true ∧
      process cv N ({ p with res := R, lens_rectangle_mask := M, lens_zoom := Z }, calls) =
        (process cv N (p, calls)).map
          (fun r => ({ r.1 with lens_rectangle_mask := m, lens_zoom := Z }, r.2)) := by
    rcases Overlaid.reconcile
      (p := { p with res := R, lens_rectangle_mask := M, lens_zoom := Z }) ho (-1) true
      (Or.inl (by decide)) with ⟨he, hrec⟩ | ⟨_, hrec⟩
    · rcases ho with ⟨_, hR⟩ | ⟨he', _⟩
      · subst hR
        exact ⟨M, he, process_lens cv M Z he N p calls hv.clean⟩
      · dsimp only at he
        rw [he] at he'
        cases he'
    · rw [process_reconciled cv N _ _ _ calls hrec]
      exact ⟨Mat.nil, rfl, process_lens cv Mat.nil Z rfl N p calls hv.clean⟩
  obtain ⟨m, hm, hkey⟩ := key
  refine ⟨_, hq, ⟨m, hm, hkey⟩, ?_, ?_⟩
  · intro r hr
    rw [hkey] at hr
    cases h0 : process cv N (p, calls) with
    | none => rw [h0] at hr; cases hr
    | some r0 =>
      rw [h0] at hr
      cases hr
      exact ⟨hm, r0, rfl, rfl, rfl⟩
  · intro hr hcv
    obtain ⟨r0, h0⟩ := process_valid_total cv hcv N h1 h7 p calls hv hr
    rw [hkey, h0]
    exact ⟨_, rfl⟩

/-- C6. Take a cache without mask, its latest non-empty slot `i` holding the image `a`, and
any mask of the size of `a`. XOR-ing the mask into slot `i` succeeds, and `RemoveLensMargin`
on the result gives back the whole original cache, so slot `i` holds `a` again, pixel for
pixel. After any sequence of lens updates the cache is the original one with the current mask
XOR-ed into its latest slot, and `RemoveLensMargin` gives back the original cache. -/
theorem overlay_reconciled (cv : OpenCV) (p : Parameters)
    (hclean : p.lens_rectangle_mask.empty = true) :
    (∀ (i : Nat) (a mask : Mat) (clear : Bool), FindLatestImage p = (i : Int) →
      p.res[i]? = some a → mask.rows = a.rows → mask.cols = a.cols →
      ∃ marked, bitwise_xor mask a = some marked ∧
        (∀ y x, y < a.rows → x < a.cols → marked.at y x = mask.at y x ^^^ a.at y x) ∧
        ∃ q, RemoveLensMargin
            { p with res := p.res.set i marked, lens_rectangle_mask := mask } (-1) clear
              = some (q, true) ∧
          q.res = p.res ∧ q.res[i]? = some a) ∧
    (∀ (events : List LensEvent), ∃ q, lensUpdates cv events p = some q ∧
      Overlaid p.res q.res q.lens_rectangle_mask ∧
      ∀ clear, ∃ q' b, RemoveLensMargin q (-1) clear = some (q', b) ∧ q'.res = p.res) := by
  constructor
  · intro i a mask clear hi ha hr hc
    have hne : mask.empty = false := by
      have := (FindLatestImage.loop_spec p.res _ i hi).2
      rw [List.getD_eq_getElem?_getD, ha] at this
      simp only [Mat.empty, hr, hc] at this ⊢
      exact this
    refine ⟨xorInto mask a, bitwise_xor_of_dims mask a hr hc, ?_, ?_⟩
    · intro y x hy hx
      exact Mat.at_tabulate _ _ _ y x hy hx
    · have ho : Overlaid p.res
          ({ p with res := p.res.set i (xorInto mask a), lens_rectangle_mask := mask } :
            Parameters).res
          ({ p with res := p.res.set i (xorInto mask a), lens_rectangle_mask := mask } :
            Parameters).lens_rectangle_mask :=
        Or.inr ⟨hne, i, a, hi, ha, hr, hc, rfl⟩
      rcases Overlaid.reconcile ho (-1) clear (Or.inl (by decide)) with ⟨he, _⟩ | ⟨_, hrec⟩
      · dsimp only at he
        rw [hne] at he
        cases he
      · exact ⟨_, hrec, rfl, ha⟩
  · intro events
    obtain ⟨R, M, Z, hq, ho⟩ :=
      Overlaid.afterUpdates cv p.res events p (Or.inl ⟨hclean, rfl⟩)
    refine ⟨_, hq, ho, ?_⟩
    intro clear
    have hres : Overlaid p.res R M := ho
    rcases Overlaid.reconcile
      (p := { p with res := R, lens_rectangle_mask := M, lens_zoom := Z }) ho (-1) clear
      (Or.inl (by decide)) with ⟨he, hrec⟩ | ⟨_, hrec⟩
    · rcases hres with ⟨_, hR⟩ | ⟨he', _⟩
      · exact ⟨_, _, hrec, hR⟩
      · have he2 : M.empty = true := he
        rw [he2] at he'
        cases he'
    · exact ⟨_, _, hrec, rfl⟩

/-! ### Truncation toward zero -/

theorem truncToInt_of_nonneg (q : ℚ) (h : 0 ≤ q) : truncToInt q = ⌊q⌋ := by
  unfold truncToInt
  rw [Rat.floor_def, Int.tdiv_eq_ediv (Rat.num_nonneg.mpr h) (Int.ofNat_nonneg _)]

theorem truncToInt_of_nonpos (q : ℚ) (h : q ≤ 0) : truncToInt q = ⌈q⌉ := by
  have hn : 0 ≤ -q := neg_nonneg.mpr h
  have e := truncToInt_of_nonneg (-q) hn
  unfold truncToInt at e ⊢
  rw [Rat.neg_num, Rat.neg_den, Int.neg_tdiv] at e
  have : ⌈q⌉ = -⌊-q⌋ := by rw [Int.floor_neg, neg_neg]
  rw [this, ← e, neg_neg]

theorem truncToInt_mono {q r : ℚ} (h : q ≤ r) : truncToInt q ≤ truncToInt r := by
  rcases le_total 0 q with hq | hq
  · rw [truncToInt_of_nonneg q hq, truncToInt_of_nonneg r (le_trans hq h)]
    exact Int.floor_mono h
  · rcases le_total 0 r with hr | hr
    · rw [truncToInt_of_nonpos q hq, truncToInt_of_nonneg r hr]
      have h1 : ⌈q⌉ ≤ 0 := Int.ceil_le.mpr (by simpa using hq)
      have h2 : 0 ≤ ⌊r⌋ := Int.floor_nonneg.mpr hr
      omega
    · rw [truncToInt_of_nonpos q hq, truncToInt_of_nonpos r hr]
      exact Int.ceil_mono h

theorem truncToInt_bounds (q : ℚ) (T : Int) (h0 : 0 ≤ q) (hT : q ≤ T) :
    0 ≤ truncToInt q ∧ truncToInt q ≤ T ∧ (truncToInt q : ℚ) ≤ q ∧ q < truncToInt q + 1 := by
  rw [truncToInt_of_nonneg q h0]
  refine ⟨Int.floor_nonneg.mpr h0, ?_, Int.floor_le q, Int.lt_floor_add_one q⟩
  have : ⌊q⌋ ≤ ⌊(T : ℚ)⌋ := Int.floor_mono hT
  simpa using this

theorem truncToInt_eq_zero (q : ℚ) (h0 : 0 ≤ q) (h1 : q < 1) : truncToInt q = 0 := by
  rw [truncToInt_of_nonneg q h0, Int.floor_eq_iff]
  constructor
  · simpa using h0
  · simpa using h1

/-! ### The pixel loops: `Gray2BW` and `ContrastBrightnessGrayscale` -/

/-- C14. For every image and every integer threshold `t`, `Gray2BW` returns an image of the
same size whose pixel is 0 where the input pixel is below `t` and 255 elsewhere; so every
pixel of the result is 0 or 255. -/
theorem Gray2BW_pixels (image : Mat) (t : Int) :
    (Gray2BW image t).rows = image.rows ∧ (Gray2BW image t).cols = image.cols ∧
    (∀ y x, y < image.rows → x < image.cols →
      (Gray2BW image t).at y x = if (image.at y x : Int) < t then 0 else 255) ∧
    (∀ y x, y < image.rows → x < image.cols →
      (Gray2BW image t).at y x = 0 ∨ (Gray2BW image t).at y x = 255) := by
  have hat : ∀ y x, y < image.rows → x < image.cols →
      (Gray2BW image t).at y x = if (image.at y x : Int) < t then 0 else 255 :=
    fun y x hy hx => Mat.at_tabulate _ _ _ y x hy hx
  refine ⟨rfl, rfl, hat, ?_⟩
  intro y x hy hx
  rw [hat y x hy hx]
  split_ifs
  · exact Or.inl rfl
  · exact Or.inr rfl

/-- C20. For every 8-bit image and every integer threshold `t`, also `t ≤ 0` and `t ≥ 256`,
binarising the binarised image changes nothing. -/
theorem Gray2BW_idempotent (image : Mat) (t : Int) (h8 : image.EightBit) :
    Gray2BW (Gray2BW image t) t = Gray2BW image t := by
  refine Mat.ext_at rfl rfl ?_
  intro y x hy hx
  have hy' : y < image.rows := hy
  have hx' : x < image.cols := hx
  have e1 : (Gray2BW (Gray2BW image t) t).at y x =
      if ((Gray2BW image t).at y x : Int) < t then 0 else 255 :=
    Mat.at_tabulate _ _ _ y x hy' hx'
  have e2 : (Gray2BW image t).at y x = if (image.at y x : Int) < t then 0 else 255 :=
    Mat.at_tabulate _ _ _ y x hy' hx'
  have hp := h8 y hy' x hx'
  rw [e1, e2]
  split_ifs with h1 h2 h2 <;> first | rfl | (exfalso; push_cast at h1 h2; omega)

theorem ContrastBrightnessGrayscale_at (image : Mat) (a b : ℚ) (y x : Nat)
    (hy : y < image.rows) (hx : x < image.cols) :
    (ContrastBrightnessGrayscale image a b).at y x =
      (max (min (truncToInt ((((image.at y x : ℚ) / 255 - b) * a + b) * 255)) 255) 0).toNat :=
  Mat.at_tabulate _ _ _ y x hy hx

theorem ContrastBrightnessGrayscale_out_eq (a b : ℚ) (c : Nat) :
    ContrastBrightnessGrayscale.out a b c =
      (max (min (truncToInt ((((c : ℚ) / 255 - b) * a + b) * 255)) 255) 0).toNat := by
  unfold ContrastBrightnessGrayscale.out
  rw [ContrastBrightnessGrayscale_at _ a b 0 0 Nat.one_pos Nat.one_pos]
  have : (Mat.const 1 1 c).at 0 0 = c := Mat.at_tabulate _ _ _ 0 0 Nat.one_pos Nat.one_pos
  rw [this]

/-- C13. Over exact arithmetic `ContrastBrightnessGrayscale` sends a pixel of intensity `c` to
`out c = clamp (trunc (((c / 255 - b) * a + b) * 255)) 0 255`. For every gain `a > 0` and
every pivot `b` this is monotone in `c`; for all `a`, `b`, `c` it is at most 255 (and, a
natural number, at least 0); and `b = 0.9`, `a = 20`, `c = 255` give 255. -/
theorem ContrastBrightnessGrayscale_monotone_clamped (a b : ℚ) :
    (∀ (image : Mat) (y x : Nat), y < image.rows → x < image.cols →
      (ContrastBrightnessGrayscale image a b).at y x
        = ContrastBrightnessGrayscale.out a b (image.at y x)) ∧
    (∀ c : Nat, ContrastBrightnessGrayscale.out a b c =
      (max (min (truncToInt ((((c : ℚ) / 255 - b) * a + b) * 255)) 255) 0).toNat) ∧
    (0 < a → ∀ c1 c2 : Nat, c1 ≤ c2 →
      ContrastBrightnessGrayscale.out a b c1 ≤ ContrastBrightnessGrayscale.out a b c2) ∧
    (∀ c : Nat, ContrastBrightnessGrayscale.out a b c ≤ 255) ∧
    ContrastBrightnessGrayscale.out 20 (9 / 10) 255 = 255 := by
  refine ⟨?_, ContrastBrightnessGrayscale_out_eq a b, ?_, ?_, ?_⟩
  · intro image y x hy hx
    rw [ContrastBrightnessGrayscale_at image a b y x hy hx, ContrastBrightnessGrayscale_out_eq]
  · intro ha c1 c2 hc
    rw [ContrastBrightnessGrayscale_out_eq, ContrastBrightnessGrayscale_out_eq]
    have hq : (((c1 : ℚ) / 255 - b) * a + b) * 255 ≤ (((c2 : ℚ) / 255 - b) * a + b) * 255 := by
      have h1 : (c1 : ℚ) ≤ c2 := by exact_mod_cast hc
      have h2 : (c1 : ℚ) / 255 - b ≤ (c2 : ℚ) / 255 - b := by
        have := div_le_div_of_nonneg_right h1 (by norm_num : (0 : ℚ) ≤ 255)
        linarith
      have h3 := mul_le_mul_of_nonneg_right h2 (le_of_lt ha)
      nlinarith
    have ht := truncToInt_mono hq
    have m1 := min_le_left (truncToInt ((((c1 : ℚ) / 255 - b) * a + b) * 255)) 255
    have m2 := min_le_right (truncToInt ((((c1 : ℚ) / 255 - b) * a + b) * 255)) 255
    have m3 : min (truncToInt ((((c1 : ℚ) / 255 - b) * a + b) * 255)) 255
        ≤ min (truncToInt ((((c2 : ℚ) / 255 - b) * a + b) * 255)) 255 :=
      le_min (le_trans m1 ht) m2
    exact Int.toNat_le_toNat (max_le_max m3 (le_refl 0))
  · intro c
    rw [ContrastBrightnessGrayscale_out_eq]
    have m2 := min_le_right (truncToInt ((((c : ℚ) / 255 - b) * a + b) * 255)) 255
    have : max (min (truncToInt ((((c : ℚ) / 255 - b) * a + b) * 255)) 255) 0 ≤ 255 :=
      max_le m2 (by decide)
    omega
  · rw [ContrastBrightnessGrayscale_out_eq]
    have e : ((((255 : Nat) : ℚ) / 255 - 9 / 10) * 20 + 9 / 10) * 255 = 1479 / 2 := by norm_num
    rw [e, truncToInt_of_nonneg _ (by norm_num)]
    have f : ⌊(1479 / 2 : ℚ)⌋ = 739 := by
      rw [Int.floor_eq_iff]
      constructor <;> norm_num
    rw [f]
    decide

/-! ### The lens rectangle -/

/-- C12. For every image and every rectangle with `width ≥ 0` and `height ≥ 0`, whatever its
origin, `CorrectROI` returns a rectangle with `width = min width cols`,
`height = min height rows`, `0 ≤ x`, `0 ≤ y`, `x + width ≤ cols` and `y + height ≤ rows`; the
sub-matrix of the image at this rectangle exists. -/
theorem CorrectROI_inside (roi : Rect) (image : Mat) (hw : 0 ≤ roi.width)
    (hh : 0 ≤ roi.height) :
    (CorrectROI roi image).width = min roi.width image.cols ∧
    (CorrectROI roi image).height = min roi.height image.rows ∧
    0 ≤ (CorrectROI roi image).x ∧ 0 ≤ (CorrectROI roi image).y ∧
    (CorrectROI roi image).x + (CorrectROI roi image).width ≤ image.cols ∧
    (CorrectROI roi image).y + (CorrectROI roi image).height ≤ image.rows ∧
    ∃ m, image.roi (CorrectROI roi image) = some m := by
  have hc : (0 : Int) ≤ image.cols := Int.ofNat_nonneg _
  have hr : (0 : Int) ≤ image.rows := Int.ofNat_nonneg _
  have w1 := min_le_left roi.width (image.cols : Int)
  have w2 := min_le_right roi.width (image.cols : Int)
  have w3 : 0 ≤ min roi.width (image.cols : Int) := le_min hw hc
  have h1 := min_le_left roi.height (image.rows : Int)
  have h2 := min_le_right roi.height (image.rows : Int)
  have h3 : 0 ≤ min roi.height (image.rows : Int) := le_min hh hr
  have x1 := min_le_right (max roi.x 0) ((image.cols : Int) - min roi.width image.cols)
  have x2 : 0 ≤ min (max roi.x 0) ((image.cols : Int) - min roi.width image.cols) :=
    le_min (le_max_right _ _) (by omega)
  have y1 := min_le_right (max roi.y 0) ((image.rows : Int) - min roi.height image.rows)
  have y2 : 0 ≤ min (max roi.y 0) ((image.rows : Int) - min roi.height image.rows) :=
    le_min (le_max_right _ _) (by omega)
  have key : 0 ≤ (CorrectROI roi image).x ∧ 0 ≤ (CorrectROI roi image).width ∧
      (CorrectROI roi image).x + (CorrectROI roi image).width ≤ image.cols ∧
      0 ≤ (CorrectROI roi image).y ∧ 0 ≤ (CorrectROI roi image).height ∧
      (CorrectROI roi image).y + (CorrectROI roi image).height ≤ image.rows := by
    unfold CorrectROI
    dsimp only
    omega
  refine ⟨rfl, rfl, key.1, key.2.2.2.1, key.2.2.1, key.2.2.2.2.2, Mat.roi_total _ _ key⟩

/-! ### Stage 3 and stage 4 -/

theorem process_3_eq (cv : OpenCV) (p : Parameters) (src0 src2 : Mat)
    (h0 : p.res[0]? = some src0) (h2 : p.res[2]? = some src2) (hlen : 3 < p.res.length) :
    ∃ p', process_3 cv p = some p' ∧
      p'.res = p.res.set 3 (cv.resize src2 (new_img_size src2
        ((if p.target_image_size < p.target_image_size_min then p.target_image_size_min
            else p.target_image_size) +
          truncToInt ((((if p.target_image_size < p.target_image_size_min
              then p.target_image_size_min else p.target_image_size : Int) : ℚ)
            / ((max src0.rows src0.cols : Nat) : ℚ)) * (p.border_in_source : ℚ) * 2)))) := by
  unfold process_3
  dsimp only
  rw [h0]
  dsimp only
  rw [h2]
  dsimp only
  unfold writeSlot
  rw [if_pos hlen]
  exact ⟨_, rfl, rfl⟩

/-- For an image with rows and columns whose longer side is at most `T` times its shorter side,
`new_img_size` returns a size with both sides at least 1. -/
theorem new_img_size_pos (image : Mat) (T : Int) (hT : 1 ≤ T) (hne : image.empty = false)
    (hr : (image.rows : Int) ≤ image.cols * T) (hc : (image.cols : Int) ≤ image.rows * T) :
    1 ≤ (new_img_size image T).width ∧ 1 ≤ (new_img_size image T).height := by
  rw [Mat.nonempty_iff] at hne
  have key : ∀ s l : Nat, 0 < l → (l : Int) ≤ s * T →
      1 ≤ truncToInt ((s : ℚ) / (l : ℚ) * (T : ℚ)) := by
    intro s l hl hsl
    have hl' : (0 : ℚ) < l := by exact_mod_cast hl
    have h1 : (1 : ℚ) ≤ (s : ℚ) / l * T := by
      rw [div_mul_eq_mul_div, le_div_iff₀ hl', one_mul]
      exact_mod_cast hsl
    have := truncToInt_mono h1
    rw [truncToInt_of_nonneg 1 (by norm_num)] at this
    simpa using this
  unfold new_img_size
  dsimp only
  split_ifs with h
  · have := key image.cols image.rows hne.1 hr
    simp only [Int.cast_natCast]
    exact ⟨this, hT⟩
  · have := key image.rows image.cols hne.2 hc
    simp only [Int.cast_natCast]
    exact ⟨hT, this⟩

/-- C18. For every kernel setting `k ≥ 0`, `process_4` on a cache that holds slot 3 returns,
and the kernel size `k'` it writes back is odd and at least 1, `k` itself when `k` is odd and
`k + 1` when `k` is even; slot 4 is the blur, with kernel `k'`, of slot 3 padded with 255 by
`⌊k' / 2⌋` pixels on each of the four sides, an image of `rows + k' - 1` rows and
`cols + k' - 1` columns. -/
theorem process_4_kernel (cv : OpenCV) (p : Parameters) (src : Mat)
    (hk : 0 ≤ p.gaussian_kernel_size) (hlen : 4 < p.res.length) (hsrc : p.res[3]? = some src) :
    ∃ p' padded, process_4 cv p = some p' ∧
      p'.gaussian_kernel_size % 2 = 1 ∧ 1 ≤ p'.gaussian_kernel_size ∧
      (p.gaussian_kernel_size % 2 = 1 → p'.gaussian_kernel_size = p.gaussian_kernel_size) ∧
      (p.gaussian_kernel_size % 2 = 0 → p'.gaussian_kernel_size = p.gaussian_kernel_size + 1) ∧
      copyMakeBorder src (p'.gaussian_kernel_size / 2) (p'.gaussian_kernel_size / 2)
        (p'.gaussian_kernel_size / 2) (p'.gaussian_kernel_size / 2) 255 = some padded ∧
      (padded.rows : Int) = src.rows + p'.gaussian_kernel_size - 1 ∧
      (padded.cols : Int) = src.cols + p'.gaussian_kernel_size - 1 ∧
      p'.res = p.res.set 4 (cv.GaussianBlur padded p'.gaussian_kernel_size) := by
  have hm : Int.tmod p.gaussian_kernel_size 2 = p.gaussian_kernel_size % 2 :=
    Int.tmod_eq_emod hk (by decide)
  obtain ⟨k', hk'⟩ : ∃ k', k' = (if Int.tmod p.gaussian_kernel_size 2 = 0
      then p.gaussian_kernel_size + 1 else p.gaussian_kernel_size) := ⟨_, rfl⟩
  have hodd : k' % 2 = 1 ∧ 1 ≤ k' ∧ (p.gaussian_kernel_size % 2 = 1 → k' = p.gaussian_kernel_size)
      ∧ (p.gaussian_kernel_size % 2 = 0 → k' = p.gaussian_kernel_size + 1) := by
    rw [hk', hm]
    split_ifs with h <;> omega
  have hd : Int.tdiv k' 2 = k' / 2 := Int.tdiv_eq_ediv (by omega) (by decide)
  have hhalf : 0 ≤ k' / 2 := by omega
  obtain ⟨padded, hp⟩ := copyMakeBorder_total src (k' / 2) 255 hhalf
  have hdims : (padded.rows : Int) = src.rows + k' - 1 ∧ (padded.cols : Int) = src.cols + k' - 1 := by
    have hp' := hp
    unfold copyMakeBorder at hp'
    rw [if_pos ⟨hhalf, hhalf, hhalf, hhalf⟩] at hp'
    cases hp'
    simp only [Mat.tabulate_rows, Mat.tabulate_cols]
    push_cast
    rw [Int.toNat_of_nonneg hhalf]
    omega
  refine ⟨{ p with gaussian_kernel_size := k', res := p.res.set 4 (cv.GaussianBlur padded k') },
    padded, ?_, hodd.1, hodd.2.1, hodd.2.2.1, hodd.2.2.2, hp, hdims.1, hdims.2, rfl⟩
  unfold process_4
  dsimp only
  rw [← hk', hsrc]
  dsimp only
  rw [hd, hp]
  dsimp only
  unfold writeSlot
  rw [if_pos hlen]

/-- C19. `process_3` returns on a cache of more than three slots, and when it returns it has set
`target_image_size` to the larger of its old value and `target_image_size_min`, and has
resized slot 2 to `new_img_size` of the clamped target plus the scaled border. For every
non-empty image and requested size `T`, `new_img_size` gives the longer side (the width when both sides are equal) the value
`T` and the shorter side the value `trunc (shorter * T / longer)`, over exact arithmetic; for
`T ≥ 0` both sides lie between 0 and `T`. -/
theorem stage_3_sizing :
    (∀ (cv : OpenCV) (p : Parameters), 3 < p.res.length → ∃ p', process_3 cv p = some p') ∧
    (∀ (cv : OpenCV) (p p' : Parameters), process_3 cv p = some p' →
      p'.target_image_size = max p.target_image_size p.target_image_size_min ∧
      p.target_image_size_min ≤ p'.target_image_size ∧
      ∃ src0 src2, p.res[0]? = some src0 ∧ p.res[2]? = some src2 ∧
        p'.approximate_resizing_rate
          = (p'.target_image_size : ℚ) / ((max src0.rows src0.cols : Nat) : ℚ) ∧
        p'.res = p.res.set 3 (cv.resize src2 (new_img_size src2
          (p'.target_image_size +
            truncToInt (p'.approximate_resizing_rate * (p.border_in_source : ℚ) * 2))))) ∧
    (∀ (image : Mat) (T : Int), image.empty = false →
      (image.rows > image.cols →
        (new_img_size image T).height = T ∧
        (new_img_size image T).width
          = truncToInt ((image.cols : ℚ) * (T : ℚ) / (image.rows : ℚ))) ∧
      (image.rows ≤ image.cols →
        (new_img_size image T).width = T ∧
        (new_img_size image T).height
          = truncToInt ((image.rows : ℚ) * (T : ℚ) / (image.cols : ℚ))) ∧
      (0 ≤ T →
        0 ≤ (new_img_size image T).width ∧ (new_img_size image T).width ≤ T ∧
        0 ≤ (new_img_size image T).height ∧ (new_img_size image T).height ≤ T)) := by
  refine ⟨?_, ?_, ?_⟩
  · intro cv p hl
    obtain ⟨p', h, _⟩ := process_3_eq cv p _ _ (slot_some p.res 0 (by omega))
      (slot_some p.res 2 (by omega)) hl
    exact ⟨p', h⟩
  · intro cv p p' h
    unfold process_3 at h
    dsimp only at h
    cases h0 : p.res[0]? with
    | none => rw [h0] at h; cases h
    | some src0 =>
      rw [h0] at h
      dsimp only at h
      cases h2 : p.res[2]? with
      | none => rw [h2] at h; cases h
      | some src2 =>
        rw [h2] at h
        dsimp only at h
        have e := writeSlot_some h
        subst e
        dsimp only
        refine ⟨?_, ?_, src0, src2, rfl, rfl, rfl, rfl⟩
        · split_ifs with hc
          · rw [max_eq_right (le_of_lt hc)]
          · rw [max_eq_left (not_lt.mp hc)]
        · split_ifs with hc
          · exact le_refl _
          · exact not_lt.mp hc
  · intro image T _
    have short : ∀ s l : Nat, s ≤ l → 0 ≤ T →
        0 ≤ truncToInt ((s : ℚ) / (l : ℚ) * (T : ℚ)) ∧
          truncToInt ((s : ℚ) / (l : ℚ) * (T : ℚ)) ≤ T := by
      intro s l hsl hT
      have hT' : (0 : ℚ) ≤ T := by exact_mod_cast hT
      have hs : (0 : ℚ) ≤ s := Nat.cast_nonneg s
      have hl : (0 : ℚ) ≤ l := Nat.cast_nonneg l
      have h1 : (s : ℚ) / l ≤ 1 := by
        apply div_le_one_of_le₀ _ hl
        exact_mod_cast hsl
      have h0 : 0 ≤ (s : ℚ) / l * T := mul_nonneg (div_nonneg hs hl) hT'
      have h2 : (s : ℚ) / l * T ≤ T := by nlinarith
      have b := truncToInt_bounds _ T h0 h2
      exact ⟨b.1, b.2.1⟩
    refine ⟨?_, ?_, ?_⟩
    · intro hgt
      have hgt' : (image.rows : Int) > image.cols := by exact_mod_cast hgt
      unfold new_img_size
      dsimp only
      rw [if_pos hgt']
      refine ⟨rfl, ?_⟩
      dsimp only
      push_cast
      rw [div_mul_eq_mul_div]
    · intro hle
      have hle' : ¬ (image.rows : Int) > image.cols := by
        have : (image.rows : Int) ≤ image.cols := by exact_mod_cast hle
        omega
      unfold new_img_size
      dsimp only
      rw [if_neg hle']
      refine ⟨rfl, ?_⟩
      dsimp only
      push_cast
      rw [div_mul_eq_mul_div]
    · intro hT
      unfold new_img_size
      dsimp only
      split_ifs with hc
      · have hc' : image.cols ≤ image.rows := by
          have : (image.cols : Int) < image.rows := hc
          omega
        have := short image.cols image.rows hc' hT
        simp only [Int.cast_natCast] at this ⊢
        exact ⟨this.1, this.2, hT, le_refl _⟩
      · have hc' : image.rows ≤ image.cols := by
          have : (image.rows : Int) ≤ image.cols := not_lt.mp hc
          exact_mod_cast this
        have := short image.rows image.cols hc' hT
        simp only [Int.cast_natCast] at this ⊢
        exact ⟨hT, le_refl _, this.1, this.2⟩

/-- Stages 1 and 2, with filters that return their input, leave `thinStrip` as it is. -/
theorem thinCold_stage_2 :
    (process sampleCV 2 (thinCold, [])).map (fun r => r.1.res)
      = some [thinStrip, thinStrip, thinStrip] := by
  decide

/-- C16 (failing input). On a source image of 11 rows and 1 column, all pixels 0, with border 0
and target size 10, the configured minimum, stage 2 leaves the image as it is; in the state
`thinParameters` that stage 3 then starts from, `process_3` asks `resize` for the size
`new_img_size` gives, which has width 0. -/
theorem process_3_empty_size (cv : OpenCV) :
    (process sampleCV 2 (thinCold, [])).map (fun r => r.1.res)
      = some [thinStrip, thinStrip, thinStrip] ∧
    thinParameters.res = vectorResize [thinStrip, thinStrip, thinStrip] 4 ∧
    thinParameters.res[2]? = some thinStrip ∧ thinStrip.empty = false ∧
    thinParameters.border_in_source = 0 ∧
    thinParameters.target_image_size_min ≤ thinParameters.target_image_size ∧
    new_img_size thinStrip 10 = { width := 0, height := 10 } ∧
    ∃ p', process_3 cv thinParameters = some p' ∧
      p'.res[3]? = some (cv.resize thinStrip { width := 0, height := 10 }) := by
  have hs : new_img_size thinStrip 10 = { width := 0, height := 10 } := by
    have hgt : ((thinStrip.rows : Nat) : Int) > ((thinStrip.cols : Nat) : Int) := by decide
    unfold new_img_size
    dsimp only
    rw [if_pos hgt]
    have : truncToInt ((((thinStrip.cols : Nat) : Int) : ℚ) / (((thinStrip.rows : Nat) : Int) : ℚ)
        * ((10 : Int) : ℚ)) = 0 := by
      apply truncToInt_eq_zero
      · simp [thinStrip, Mat.const, Mat.tabulate]
      · simp [thinStrip, Mat.const, Mat.tabulate]
        norm_num
    rw [this]
  refine ⟨thinCold_stage_2, by decide, rfl, by decide, rfl, by decide, hs, ?_⟩
  obtain ⟨p', hp, hres⟩ := process_3_eq cv thinParameters thinStrip thinStrip rfl rfl
    (by decide)
  refine ⟨p', hp, ?_⟩
  have ht : (if thinParameters.target_image_size < thinParameters.target_image_size_min
      then thinParameters.target_image_size_min else thinParameters.target_image_size) = 10 := by
    decide
  have hbd : thinParameters.border_in_source = 0 := rfl
  rw [ht, hbd] at hres
  have hz : truncToInt ((((10 : Int) : ℚ) / ((max thinStrip.rows thinStrip.cols : Nat) : ℚ))
      * ((0 : Int) : ℚ) * 2) = 0 := by
    apply truncToInt_eq_zero <;> simp
  rw [hz] at hres
  have e10 : (10 : Int) + 0 = 10 := rfl
  rw [e10, hs] at hres
  rw [hres]
  rfl

/-! ### Termination and index bounds of `process` -/

/-- On a state that `RemoveLensMargin` leaves as it is, with a non-empty slot 0, a run of
`process N` that returns has invoked the stages `k, ..., N` for some `1 ≤ k ≤ N` and leaves a
cache of length `N + 1`. -/
theorem process_depth (cv : OpenCV) : ∀ (N : Nat), N ≤ 7 → ∀ (p : Parameters)
    (calls : List Nat), RemoveLensMargin p (-1) true = some (p, false) → 1 ≤ p.res.length →
    (p.res.getD 0 Mat.nil).empty = false → ∀ r, process cv N (p, calls) = some r →
      ∃ k, 1 ≤ k ∧ k ≤ N ∧ r.2 = calls ++ List.range' k (N + 1 - k) ∧
        r.1.res.length = N + 1 := by
  intro N
  induction N with
  | zero =>
    intro _ p calls _ _ _ r h
    simp [process] at h
  | succ n ih =>
    intro h7 p calls hrm hlen hs r h
    rw [process, hrm] at h
    dsimp only at h
    simp only [if_pos h7] at h
    by_cases hc : p.res.length < n + 1 ∨ (p.res.getD n Mat.nil).empty = true
    · rw [if_pos hc] at h
      cases hrec : process cv n (p, calls) with
      | none => rw [hrec] at h; cases h
      | some r1 =>
        rw [hrec] at h
        dsimp only at h
        obtain ⟨k, hk1, hkn, hcalls, hl1⟩ := ih (by omega) p calls hrm hlen hs r1 hrec
        cases hst : runStage cv (n + 1) { r1.1 with res := vectorResize r1.1.res (n + 1 + 1) } with
        | none => rw [hst] at h; cases h
        | some p2 =>
          rw [hst] at h
          cases h
          obtain ⟨out, A⟩ := runStage_after_resize cv n r1.1 p2 h7 (by omega) hst
          refine ⟨k, hk1, by omega, ?_, ?_⟩
          · dsimp only
            rw [hcalls, List.append_assoc]
            congr 1
            have e : n + 1 + 1 - k = (n + 1 - k) + 1 := by omega
            rw [e, List.range'_concat]
            congr 2
            simp
            omega
          · dsimp only
            rw [A.res]
            simp
            omega
    · rw [if_neg hc] at h
      dsimp only at h
      have hL : n + 1 ≤ p.res.length := by
        by_contra hcon
        exact hc (Or.inl (by omega))
      cases hst : runStage cv (n + 1) { p with res := vectorResize p.res (n + 1 + 1) } with
      | none => rw [hst] at h; cases h
      | some p2 =>
        rw [hst] at h
        cases h
        obtain ⟨out, A⟩ := runStage_after_resize cv n p p2 h7 hL hst
        refine ⟨n + 1, by omega, le_refl _, ?_, ?_⟩
        · dsimp only
          simp
        · dsimp only
          rw [A.res]
          simp
          omega

/-- On an overlay-free cache with a non-empty slot 0, whatever the other slots are, `process N`
returns when the padding parameters are not negative and the OpenCV filters keep images
non-empty; slot `N` of the result is non-empty. -/
theorem process_returns (cv : OpenCV) (hcv : cv.KeepsNonEmpty) : ∀ (N : Nat), 1 ≤ N → N ≤ 7 →
    ∀ (p : Parameters) (calls : List Nat), p.lens_rectangle_mask.empty = true →
    1 ≤ p.res.length → (p.res.getD 0 Mat.nil).empty = false → p.InRange →
      ∃ r, process cv N (p, calls) = some r ∧ r.1.res.length = N + 1 ∧
        (r.1.res.getD N Mat.nil).empty = false ∧ r.1.lens_rectangle_mask.empty = true ∧
        r.1.InRange := by
  intro N
  induction N with
  | zero => intro h; omega
  | succ n ih =>
    intro _ h7 p calls hclean hlen hs hr
    have finish : ∀ (p1 : Parameters) (c1 : List Nat), n + 1 ≤ p1.res.length →
        (p1.res.getD n Mat.nil).empty = false → p1.lens_rectangle_mask.empty = true →
        p1.InRange →
        ∃ p2, runStage cv (n + 1) { p1 with res := vectorResize p1.res (n + 1 + 1) } = some p2 ∧
          p2.res.length = n + 1 + 1 ∧ (p2.res.getD (n + 1) Mat.nil).empty = false ∧
          p2.lens_rectangle_mask.empty = true ∧ p2.InRange := by
      intro p1 c1 hl1 hs1 hc1 hr1
      obtain ⟨p2, h2⟩ := runStage_after_resize_total cv n p1 h7 hl1 hs1 hr1
      obtain ⟨out, A⟩ := runStage_after_resize cv n p1 p2 h7 hl1 h2
      have hl : (p1.res.take (n + 1)).length = n + 1 := by simp; omega
      refine ⟨p2, h2, ?_, ?_, ?_, A.inRange hr1⟩
      · rw [A.res]; simp; omega
      · rw [A.res, List.getD_eq_getElem?_getD, List.getElem?_append_right (by omega)]
        simpa [hl] using A.nonempty hcv hs1
      · rw [A.mask]; exact hc1
    rw [process_succ_of_clean cv n p calls hclean]
    simp only [if_pos h7]
    by_cases hc : p.res.length < n + 1 ∨ (p.res.getD n Mat.nil).empty = true
    · rw [if_pos hc]
      have hn : 1 ≤ n := by
        by_contra hcon
        have : n = 0 := by omega
        subst this
        rcases hc with hc | hc
        · omega
        · rw [hs] at hc
          cases hc
      obtain ⟨r1, h1, hl1, hs1, hc1, hr1⟩ := ih hn (by omega) p calls hclean hlen hs hr
      rw [h1]
      dsimp only
      obtain ⟨p2, h2, rest⟩ := finish r1.1 r1.2 (by omega) hs1 hc1 hr1
      rw [h2]
      exact ⟨_, rfl, rest⟩
    · rw [if_neg hc]
      dsimp only
      have hL : n + 1 ≤ p.res.length := by
        by_contra hcon
        exact hc (Or.inl (by omega))
      have hsn : (p.res.getD n Mat.nil).empty = false := by
        by_contra hcon
        exact hc (Or.inr (by simpa using hcon))
      obtain ⟨p2, h2, rest⟩ := finish p calls hL hsn hclean hr
      rw [h2]
      exact ⟨_, rfl, rest⟩

/-- With a non-empty slot 0, `RemoveLensMargin` returns when the overlay mask is empty or has
the size of the latest non-empty slot; it keeps the two padding parameters. -/
theorem RemoveLensMargin_total (p : Parameters) (hlen : 1 ≤ p.res.length)
    (hs : (p.res.getD 0 Mat.nil).empty = false)
    (hmask : p.lens_rectangle_mask.empty = true ∨
      (p.lens_rectangle_mask.rows = (p.res.getD (FindLatestImage p).toNat Mat.nil).rows ∧
        p.lens_rectangle_mask.cols = (p.res.getD (FindLatestImage p).toNat Mat.nil).cols)) :
    ∃ p' b, RemoveLensMargin p (-1) true = some (p', b) ∧ (p.InRange → p'.InRange) := by
  by_cases he : p.lens_rectangle_mask.empty = true
  · exact ⟨p, false, RemoveLensMargin_of_clean p _ _ he, fun h => h⟩
  · have he' : p.lens_rectangle_mask.empty = false := by simpa using he
    have hd := hmask.resolve_left he
    have hpos := FindLatestImage.nonneg_of_slot p 0 (by omega) hs
    obtain ⟨k, hk⟩ := Int.eq_ofNat_of_zero_le hpos
    have hspec := FindLatestImage.loop_spec p.res p.res.length k hk
    have hk' : (FindLatestImage p).toNat = k := by rw [hk]; rfl
    rw [hk'] at hd
    unfold RemoveLensMargin
    simp only [he', Bool.not_false, if_true, show ((-1 : Int) < 0) from by decide]
    rw [if_pos hpos, hk', slot_some p.res k hspec.1]
    dsimp only
    rw [bitwise_xor_of_dims _ _ hd.1 hd.2]
    exact ⟨_, _, rfl, fun h => h⟩

/-- C17. Take `1 ≤ N ≤ 7` and a cache whose slot 0 exists and is non-empty; the other slots,
the mask and the parameters are arbitrary. `process N` is a total function (its recursion is
on the stage). Whenever it returns, which it does not when it reads or writes outside the
vector or reaches stage 0, it has invoked the stages `k, ..., N` for some `1 ≤ k ≤ N`: at most
`N` levels and never stage 0. It does return when the overlay mask is empty or has the size of
the latest non-empty slot, the padding parameters are not negative and the OpenCV filters keep
images non-empty. -/
theorem process_terminates_in_bounds (cv : OpenCV) (N : Nat) (p : Parameters)
    (calls : List Nat) (h1 : 1 ≤ N) (h7 : N ≤ 7) (hlen : 1 ≤ p.res.length)
    (hs : (p.res.getD 0 Mat.nil).empty = false) :
    process cv 0 (p, calls) = none ∧
    (∀ r, process cv N (p, calls) = some r →
      ∃ k, 1 ≤ k ∧ k ≤ N ∧ r.2 = calls ++ List.range' k (N + 1 - k) ∧
        (List.range' k (N + 1 - k)).length ≤ N ∧ 0 ∉ List.range' k (N + 1 - k) ∧
        r.1.res.length = N + 1) ∧
    ((p.lens_rectangle_mask.empty = true ∨
        (p.lens_rectangle_mask.rows = (p.res.getD (FindLatestImage p).toNat Mat.nil).rows ∧
          p.lens_rectangle_mask.cols = (p.res.getD (FindLatestImage p).toNat Mat.nil).cols)) →
      p.InRange → cv.KeepsNonEmpty → ∃ r, process cv N (p, calls) = some r) := by
  refine ⟨rfl, ?_, ?_⟩
  · intro r h
    cases hrm : RemoveLensMargin p (-1) true with
    | none => rw [process_none_of_reconcile cv N p calls hrm] at h; cases h
    | some pb =>
      obtain ⟨p', b⟩ := pb
      rw [process_reconciled cv N p p' b calls hrm] at h
      obtain ⟨s1, s2, s3, _⟩ := RemoveLensMargin_shape p p' b hrm
      obtain ⟨k, hk1, hkN, hcalls, hl⟩ := process_depth cv N h7 p' calls s3 (by omega)
        (by rw [s2 0]; exact hs) r h
      refine ⟨k, hk1, hkN, hcalls, ?_, ?_, hl⟩
      · simp
        omega
      · rw [List.mem_range'_1]
        omega
  · intro hmask hr hcv
    obtain ⟨p', b, hrm, hr'⟩ := RemoveLensMargin_total p hlen hs hmask
    obtain ⟨s1, s2, _, s4⟩ := RemoveLensMargin_shape p p' b hrm
    rw [process_reconciled cv N p p' b calls hrm]
    obtain ⟨r, h, _⟩ := process_returns cv hcv N h1 h7 p' calls
      (s4 (FindLatestImage.nonneg_of_slot p 0 (by omega) hs)) (by omega)
      (by rw [s2 0]; exact hs) (hr' hr)
    exact ⟨r, h⟩

/-! ### Stage 2 applied to its own output -/

/-- Tight extremes move with the image: when the qualifying pixels of `B` are those of `A`
moved by `(dy, dx)`, the extremes of `B` are those of `A` moved by `(dy, dx)`. -/
theorem Tight.of_shift {A B : Mat} {lo hi : Nat} {s : Extremes} (dx dy : Int)
    (fwd : ∀ y x, y < A.rows → x < A.cols → Qualifies A lo hi y x →
      ∃ y' x', y' < B.rows ∧ x' < B.cols ∧ Qualifies B lo hi y' x' ∧
        (y' : Int) = y + dy ∧ (x' : Int) = x + dx)
    (bwd : ∀ y' x', y' < B.rows → x' < B.cols → Qualifies B lo hi y' x' →
      ∃ y x, y < A.rows ∧ x < A.cols ∧ Qualifies A lo hi y x ∧
        (y' : Int) = y + dy ∧ (x' : Int) = x + dx)
    (h : Tight A lo hi s) :
    Tight B lo hi { min_x := s.min_x + dx, max_x := s.max_x + dx,
                    min_y := s.min_y + dy, max_y := s.max_y + dy } := by
  refine ⟨?_, ?_, ?_, ?_, ?_⟩
  · intro y' x' hy hx hq
    obtain ⟨y, x, h1, h2, h3, h4, h5⟩ := bwd y' x' hy hx hq
    have c := h.cover y x h1 h2 h3
    dsimp only
    omega
  · obtain ⟨y, hy, x, hx, hq, e⟩ := h.min_x
    obtain ⟨y', x', h1, h2, h3, h4, h5⟩ := fwd y x hy hx hq
    exact ⟨y', h1, x', h2, h3, by dsimp only; omega⟩
  · obtain ⟨y, hy, x, hx, hq, e⟩ := h.max_x
    obtain ⟨y', x', h1, h2, h3, h4, h5⟩ := fwd y x hy hx hq
    exact ⟨y', h1, x', h2, h3, by dsimp only; omega⟩
  · obtain ⟨y, hy, x, hx, hq, e⟩ := h.min_y
    obtain ⟨y', x', h1, h2, h3, h4, h5⟩ := fwd y x hy hx hq
    exact ⟨y', h1, x', h2, h3, by dsimp only; omega⟩
  · obtain ⟨y, hy, x, hx, hq, e⟩ := h.max_y
    obtain ⟨y', x', h1, h2, h3, h4, h5⟩ := fwd y x hy hx hq
    exact ⟨y', h1, x', h2, h3, by dsimp only; omega⟩

/-- Padding by `b` with a value above `hi` moves the tight extremes by `b`. -/
theorem Tight.of_pad {src P : Mat} {lo hi : Nat} {s : Extremes} {b : Int} {v : Nat}
    (h : Tight src lo hi s) (hv : hi < v) (hP : copyMakeBorder src b b b b v = some P) :
    Tight P lo hi { min_x := s.min_x + b, max_x := s.max_x + b,
                    min_y := s.min_y + b, max_y := s.max_y + b } := by
  unfold copyMakeBorder at hP
  split_ifs at hP with hb
  cases hP
  have hB : (b.toNat : Int) = b := Int.toNat_of_nonneg hb.1
  refine Tight.of_shift b b ?_ ?_ h
  · intro y x hy hx hq
    have hy' : y + b.toNat < src.rows + b.toNat + b.toNat := by omega
    have hx' : x + b.toNat < src.cols + b.toNat + b.toNat := by omega
    refine ⟨y + b.toNat, x + b.toNat, hy', hx', ?_, by omega, by omega⟩
    unfold Qualifies
    rw [Mat.at_tabulate _ _ _ _ _ hy' hx', if_pos (by omega), Nat.add_sub_cancel,
      Nat.add_sub_cancel]
    exact hq
  · intro y' x' hy hx hq
    simp only [Mat.tabulate_rows, Mat.tabulate_cols] at hy hx
    unfold Qualifies at hq
    rw [Mat.at_tabulate _ _ _ _ _ hy hx] at hq
    by_cases hc : b.toNat ≤ y' ∧ y' < b.toNat + src.rows ∧ b.toNat ≤ x' ∧ x' < b.toNat + src.cols
    · rw [if_pos hc] at hq
      exact ⟨y' - b.toNat, x' - b.toNat, by omega, by omega, hq, by omega, by omega⟩
    · rw [if_neg hc] at hq
      omega

/-- Cropping to a rectangle that contains the tight extremes moves them by the origin of the
rectangle. -/
theorem Tight.of_roi {P out : Mat} {lo hi : Nat} {t : Extremes} {r : Rect}
    (h : Tight P lo hi t) (hr : P.roi r = some out)
    (hx : r.x ≤ t.min_x) (hX : t.max_x < r.x + r.width)
    (hy : r.y ≤ t.min_y) (hY : t.max_y < r.y + r.height) :
    Tight out lo hi { min_x := t.min_x + -r.x, max_x := t.max_x + -r.x,
                      min_y := t.min_y + -r.y, max_y := t.max_y + -r.y } := by
  unfold Mat.roi at hr
  split_ifs at hr with hin
  cases hr
  have hrx : (r.x.toNat : Int) = r.x := Int.toNat_of_nonneg hin.1
  have hry : (r.y.toNat : Int) = r.y := Int.toNat_of_nonneg hin.2.2.2.1
  have hrw : (r.width.toNat : Int) = r.width := Int.toNat_of_nonneg hin.2.1
  have hrh : (r.height.toNat : Int) = r.height := Int.toNat_of_nonneg hin.2.2.2.2.1
  refine Tight.of_shift (-r.x) (-r.y) ?_ ?_ h
  · intro y x hy1 hx1 hq
    have c := h.cover y x hy1 hx1 hq
    have hy' : y - r.y.toNat < r.height.toNat := by omega
    have hx' : x - r.x.toNat < r.width.toNat := by omega
    refine ⟨y - r.y.toNat, x - r.x.toNat, hy', hx', ?_, by omega, by omega⟩
    unfold Qualifies
    rw [Mat.at_tabulate _ _ _ _ _ hy' hx']
    have e1 : y - r.y.toNat + r.y.toNat = y := by omega
    have e2 : x - r.x.toNat + r.x.toNat = x := by omega
    rw [e1, e2]
    exact hq
  · intro y' x' hy1 hx1 hq
    simp only [Mat.tabulate_rows, Mat.tabulate_cols] at hy1 hx1
    unfold Qualifies at hq
    rw [Mat.at_tabulate _ _ _ _ _ hy1 hx1] at hq
    exact ⟨y' + r.y.toNat, x' + r.x.toNat, by omega, by omega, hq, by omega, by omega⟩

/-- Stage 2 on an image whose qualifying pixels have the tight extremes `s`, with a border
that is not negative and an upper threshold below the padding value 255: the padded image is
cropped to the columns `s.min_x .. s.max_x + 2 * border` and the rows
`s.min_y .. s.max_y + 2 * border`, and in the result the qualifying pixels leave a margin of
exactly `border` on each of the four sides. -/
theorem process_2_image_of_tight (src : Mat) (border black white : Int) (s : Extremes)
    (hb : 0 ≤ border) (hw : toUchar white < 255)
    (h : Tight src (toUchar black) (toUchar white) s) :
    ∃ padded out, copyMakeBorder src border border border border 255 = some padded ∧
      process_2.image src border black white = some out ∧
      padded.roi { x := s.min_x, y := s.min_y, width := s.max_x - s.min_x + 1 + 2 * border,
                   height := s.max_y - s.min_y + 1 + 2 * border } = some out ∧
      Tight out (toUchar black) (toUchar white)
        { min_x := border, max_x := s.max_x - s.min_x + border, min_y := border,
          max_y := s.max_y - s.min_y + border } := by
  obtain ⟨P, hP⟩ := copyMakeBorder_total src border 255 hb
  have tP := h.of_pad hw hP
  have bs := h.bounds
  have hqP : HasQualifying P (toUchar black) (toUchar white) := by
    obtain ⟨y, hy, x, hx, hq, _⟩ := tP.min_x
    exact ⟨y, hy, x, hx, hq⟩
  have hscan := Tight.unique (BoundingBox.scan_tight P _ _ hqP) tP
  have hdim : (P.rows : Int) = src.rows + 2 * border ∧ (P.cols : Int) = src.cols + 2 * border := by
    have hP' := hP
    unfold copyMakeBorder at hP'
    rw [if_pos ⟨hb, hb, hb, hb⟩] at hP'
    cases hP'
    simp only [Mat.tabulate_rows, Mat.tabulate_cols]
    push_cast
    rw [Int.toNat_of_nonneg hb]
    omega
  have hbox : BoundingBox P (toUchar black) (toUchar white) border =
      { x := s.min_x, y := s.min_y, width := s.max_x - s.min_x + 1 + 2 * border,
        height := s.max_y - s.min_y + 1 + 2 * border } := by
    rw [BoundingBox.of_scan, hscan]
    dsimp only
    rw [if_neg (by omega)]
    split_ifs with h0
    · have e1 : max (s.min_x + border - border) 0 = s.min_x := by
        rw [max_eq_left (by omega)]; omega
      have e2 : max (s.min_y + border - border) 0 = s.min_y := by
        rw [max_eq_left (by omega)]; omega
      have e3 : min (s.max_x + border + border) ((P.cols : Int) - 1)
          = s.max_x + border + border := min_eq_left (by omega)
      have e4 : min (s.max_y + border + border) ((P.rows : Int) - 1)
          = s.max_y + border + border := min_eq_left (by omega)
      rw [e1, e2, e3, e4]
      simp only [Rect.mk.injEq]
      refine ⟨trivial, trivial, by ring, by ring⟩
    · have h00 : border = 0 := by
        by_contra hcon
        exact h0 hcon
      subst h00
      simp only [Rect.mk.injEq]
      omega
  obtain ⟨out, hout⟩ := Mat.roi_total P
    { x := s.min_x, y := s.min_y, width := s.max_x - s.min_x + 1 + 2 * border,
      height := s.max_y - s.min_y + 1 + 2 * border } (by dsimp only; omega)
  refine ⟨P, out, hP, ?_, hout, ?_⟩
  · unfold process_2.image
    rw [hP]
    dsimp only
    rw [hbox]
    have hne : (Rect.mk s.min_x s.min_y (s.max_x - s.min_x + 1 + 2 * border)
        (s.max_y - s.min_y + 1 + 2 * border)).empty = false := by
      rw [Rect.not_empty_iff]
      dsimp only
      omega
    rw [hne]
    exact hout
  · have t := tP.of_roi hout (by dsimp only; omega) (by dsimp only; omega) (by dsimp only; omega)
      (by dsimp only; omega)
    dsimp only at t
    have e : Extremes.mk border (s.max_x - s.min_x + border) border
        (s.max_y - s.min_y + border) =
        Extremes.mk (s.min_x + border + -s.min_x) (s.max_x + border + -s.min_x)
          (s.min_y + border + -s.min_y) (s.max_y + border + -s.min_y) := by
      simp only [Extremes.mk.injEq]
      omega
    rw [e]
    exact t

/-- C11. For every image with a pixel in `[black, white]`, every border `b ≥ 0` and every upper
threshold below 255 (the thresholds as `BoundingBox` receives them, converted to `uchar`), the
stage-2 transform (pad by `b` with 255, crop to the bounding box taken with border `b`)
returns an image, and applied to that image it returns the same image. -/
theorem process_2_idempotent (src : Mat) (border black white : Int) (hb : 0 ≤ border)
    (hw : toUchar white < 255) (hq : HasQualifying src (toUchar black) (toUchar white)) :
    ∃ out, process_2.image src border black white = some out ∧
      process_2.image out border black white = some out := by
  obtain ⟨P1, out1, hP1, h1, hr1, t1⟩ := process_2_image_of_tight src border black white _ hb hw
    (BoundingBox.scan_tight src _ _ hq)
  obtain ⟨P2, out2, hP2, h2, hr2, t2⟩ := process_2_image_of_tight out1 border black white _ hb hw
    t1
  refine ⟨out1, h1, ?_⟩
  rw [h2]
  congr 1
  have bs := (BoundingBox.scan_tight src _ _ hq).bounds
  have d1 := Mat.roi_dims hr1
  dsimp only at d1 hr2
  have hB : (border.toNat : Int) = border := Int.toNat_of_nonneg hb
  unfold copyMakeBorder at hP2
  rw [if_pos ⟨hb, hb, hb, hb⟩] at hP2
  cases hP2
  unfold Mat.roi at hr2
  split_ifs at hr2 with hin
  cases hr2
  dsimp only
  refine Mat.ext_at ?_ ?_ ?_
  · rw [Mat.tabulate_rows, d1.1]
    omega
  · rw [Mat.tabulate_cols, d1.2]
    omega
  · intro y x hy hx
    simp only [Mat.tabulate_rows, Mat.tabulate_cols] at hy hx
    have hy1 : y < out1.rows := by rw [d1.1]; omega
    have hx1 : x < out1.cols := by rw [d1.2]; omega
    rw [Mat.at_tabulate _ _ _ _ _ hy hx,
      Mat.at_tabulate _ _ _ _ _ (by omega) (by omega), if_pos (by omega),
      Nat.add_sub_cancel, Nat.add_sub_cancel]

/-! ## The theorems at concrete inputs -/

theorem sampleCV_keepsNonEmpty : sampleCV.KeepsNonEmpty := by
  refine ⟨fun _ _ _ _ h => h, ?_, fun _ _ h => h⟩
  intro m size h
  show (if 0 < size.width ∧ 0 < size.height then _ else m).empty = false
  split_ifs with hs
  · rw [Mat.nonempty_iff]
    simp only [Mat.tabulate_rows, Mat.tabulate_cols]
    omega
  · exact h

/-- C1 (witness). From the cold state `sampleCold`, `process 7` returns and has invoked the
stages 1, 2, 3, 4, 5, 6, 7 in this order. -/
theorem process_cold_calls_witness :
    Cold sampleCold ∧ sampleCold.InRange ∧
    ∃ p', process sampleCV 7 (sampleCold, []) = some (p', [1, 2, 3, 4, 5, 6, 7]) :=
  ⟨by decide, by decide,
    (process_cold_calls sampleCV 7 sampleCold (by decide) (by decide) (by decide)).2
      (by decide) sampleCV_keepsNonEmpty⟩

/-- C2 (witness). From the cold state `sampleCold`, `process 3` and then `process 7` return,
and whenever they do the second call has invoked the stages 4, 5, 6, 7 only. -/
theorem process_after_process_calls_witness :
    Cold sampleCold ∧ sampleCV.KeepsNonEmpty ∧
    ((∀ r1 r2, process sampleCV 3 (sampleCold, []) = some r1 →
        process sampleCV 7 (r1.1, []) = some r2 →
        r2.2 = List.range' (3 + 1) (7 - 3) ∧ ∀ k, k ≤ 3 → k ∉ r2.2) ∧
      (sampleCold.InRange → ∃ r1 r2, process sampleCV 3 (sampleCold, []) = some r1 ∧
        process sampleCV 7 (r1.1, []) = some r2)) :=
  ⟨by decide, sampleCV_keepsNonEmpty,
    process_after_process_calls sampleCV 3 7 sampleCold (by decide) (by decide) (by decide)
      (by decide) sampleCV_keepsNonEmpty⟩

/-- C3 (witness). On the warm state `sampleWarm`, whose slots 0, 1, 2 are non-empty,
`process 2` returns, invokes stage 2 only, keeps the slots 0 and 1 and leaves a cache of
length 3. -/
theorem process_warm_frame_witness :
    sampleWarm.lens_rectangle_mask.empty = true ∧
    (∀ j, j ≤ 2 → (sampleWarm.res.getD j Mat.nil).empty = false) ∧
    ((∀ r, process sampleCV 2 (sampleWarm, []) = some r →
        r.2 = [2] ∧ r.1.res.length = 2 + 1 ∧ r.1.res.take 2 = sampleWarm.res.take 2 ∧
        ∀ j, j < 2 → r.1.res.getD j Mat.nil = sampleWarm.res.getD j Mat.nil) ∧
      (sampleWarm.InRange → ∃ r, process sampleCV 2 (sampleWarm, []) = some r)) :=
  ⟨by decide, by decide,
    process_warm_frame sampleCV 2 2 sampleWarm (by decide) (by decide) (by decide) (by decide)
      (by decide) (by decide)⟩

/-- C4 (witness). With the operations `sampleCV`, which keep images non-empty, `process 5` on
the cold state `sampleCold` returns, and whenever it does slots `0..5` are all non-empty. -/
theorem process_keeps_noGaps_witness :
    sampleCV.KeepsNonEmpty ∧
    ((∀ r, process sampleCV 5 (sampleCold, []) = some r →
        r.1.res.length = 5 + 1 ∧ AllNonEmpty r.1.res ∧ NoGaps r.1.res) ∧
      (sampleCold.lens_rectangle_mask.empty = true → sampleCold.InRange →
        ∃ r, process sampleCV 5 (sampleCold, []) = some r)) :=
  ⟨sampleCV_keepsNonEmpty,
    (process_keeps_noGaps sampleCV sampleCV_keepsNonEmpty).1 5 sampleCold [] (by decide)
      (by decide) (by decide) (by decide)⟩

/-- C5 (witness). On the cold state `sampleCold`, after the two lens events `sampleEvents`,
`process 7` returns what it returns without them, up to the zoom and an empty mask. -/
theorem lens_transparent_witness :
    Valid sampleCold ∧
    ∃ q, lensUpdates sampleCV sampleEvents sampleCold = some q ∧
      (∃ m, m.empty = true ∧
        process sampleCV 7 (q, []) =
          (process sampleCV 7 (sampleCold, [])).map
            (fun r => ({ r.1 with lens_rectangle_mask := m, lens_zoom := q.lens_zoom }, r.2))) ∧
      (∀ r, process sampleCV 7 (q, []) = some r →
        r.1.lens_rectangle_mask.empty = true ∧
        ∃ r0, process sampleCV 7 (sampleCold, []) = some r0 ∧ r.1.res = r0.1.res ∧
          r.2 = r0.2) ∧
      (sampleCold.InRange → sampleCV.KeepsNonEmpty → ∃ r, process sampleCV 7 (q, []) = some r) :=
  ⟨⟨by decide, by decide, by decide⟩,
    lens_transparent sampleCV sampleCold sampleEvents 7 [] (by decide) (by decide)
      ⟨by decide, by decide, by decide⟩⟩

/-- C6 (witness). On the cold state `sampleCold`, which has no mask, after the lens events
`sampleEvents` the cache is the original one with the mask XOR-ed into its latest slot, and
`RemoveLensMargin` gives the original cache back. -/
theorem overlay_reconciled_witness :
    sampleCold.lens_rectangle_mask.empty = true ∧
    ∃ q, lensUpdates sampleCV sampleEvents sampleCold = some q ∧
      Overlaid sampleCold.res q.res q.lens_rectangle_mask ∧
      ∀ clear, ∃ q' b, RemoveLensMargin q (-1) clear = some (q', b) ∧ q'.res = sampleCold.res :=
  ⟨by decide, (overlay_reconciled sampleCV sampleCold (by decide)).2 sampleEvents⟩

/-- C8 (witness). The image `sampleImage` has pixels in `[0, 100]`, and the rectangle
returned for them is the tightest one. -/
theorem BoundingBox_tightest_witness :
    HasQualifying sampleImage 0 100 ∧
    TightestBox sampleImage 0 100 (BoundingBox sampleImage 0 100 0) :=
  ⟨by decide, BoundingBox_tightest sampleImage 0 100 (by decide)⟩

/-- C9 (witness). The image `sampleImage` has pixels in `[0, 100]`; with border 5 the box is
the border-0 box widened by 5 and clamped to the image. -/
theorem BoundingBox_border_witness :
    (0 : Int) ≤ 5 ∧ HasQualifying sampleImage 0 100 ∧
    (BoundingBox sampleImage 0 100 5
        = expandClamped (BoundingBox sampleImage 0 100 0) 5 sampleImage ∧
      (BoundingBox sampleImage 0 100 5).Inside sampleImage ∧
      (BoundingBox sampleImage 0 100 5).Covers (BoundingBox sampleImage 0 100 0)) :=
  ⟨by decide, by decide, BoundingBox_border sampleImage 0 100 5 (by decide) (by decide)⟩

/-- C11 (witness). On `sampleImage` with border 2 and thresholds 0 and 240 the stage-2
transform returns an image that it maps to itself. -/
theorem process_2_idempotent_witness :
    (0 : Int) ≤ 2 ∧ toUchar 240 < 255 ∧ HasQualifying sampleImage (toUchar 0) (toUchar 240) ∧
    ∃ out, process_2.image sampleImage 2 0 240 = some out ∧
      process_2.image out 2 0 240 = some out :=
  ⟨by decide, by decide, by decide,
    process_2_idempotent sampleImage 2 0 240 (by decide) (by decide) (by decide)⟩

/-- C12 (witness). A 4 × 4 window rectangle placed at `(-7, 9)` is moved inside the 3 × 4
image `sampleImage` and cut to its 3 rows. -/
theorem CorrectROI_inside_witness :
    (0 : Int) ≤ 4 ∧
    CorrectROI { x := -7, y := 9, width := 4, height := 4 } sampleImage
      = { x := 0, y := 0, width := 4, height := 3 } ∧
    ∃ m, sampleImage.roi (CorrectROI { x := -7, y := 9, width := 4, height := 4 } sampleImage)
      = some m :=
  ⟨by decide, by decide,
    (CorrectROI_inside { x := -7, y := 9, width := 4, height := 4 } sampleImage (by decide)
      (by decide)).2.2.2.2.2.2⟩

/-- C17 (witness). The warm state `sampleWarm` has a non-empty slot 0 (and an empty slot 3);
`process 7` on it returns, and on every return the stages invoked are `k, ..., 7` with
`1 ≤ k`. -/
theorem process_terminates_in_bounds_witness :
    1 ≤ sampleWarm.res.length ∧ (sampleWarm.res.getD 0 Mat.nil).empty = false ∧
    (∀ r, process sampleCV 7 (sampleWarm, []) = some r →
      ∃ k, 1 ≤ k ∧ k ≤ 7 ∧ r.2 = [] ++ List.range' k (7 + 1 - k) ∧
        (List.range' k (7 + 1 - k)).length ≤ 7 ∧ 0 ∉ List.range' k (7 + 1 - k) ∧
        r.1.res.length = 7 + 1) ∧
    ∃ r, process sampleCV 7 (sampleWarm, []) = some r :=
  ⟨by decide, by decide,
    (process_terminates_in_bounds sampleCV 7 sampleWarm [] (by decide) (by decide) (by decide)
      (by decide)).2.1,
    (process_terminates_in_bounds sampleCV 7 sampleWarm [] (by decide) (by decide) (by decide)
      (by decide)).2.2 (Or.inl (by decide)) (by decide) sampleCV_keepsNonEmpty⟩

/-- C18 (witness). With the kernel setting 4, `process_4` writes back the kernel size 5. -/
theorem process_4_kernel_witness :
    (0 : Int) ≤ kernelParameters.gaussian_kernel_size ∧ 4 < kernelParameters.res.length ∧
    kernelParameters.res[3]? = some sampleImage ∧
    ∃ p', process_4 sampleCV kernelParameters = some p' ∧ p'.gaussian_kernel_size = 4 + 1 := by
  refine ⟨by decide, by decide, rfl, ?_⟩
  obtain ⟨p', _, h, _, _, _, he, _⟩ :=
    process_4_kernel sampleCV kernelParameters sampleImage (by decide) (by decide) rfl
  exact ⟨p', h, he (by decide)⟩

/-- C20 (witness). The image `sampleImage` is an 8-bit image, and binarising it twice at the
threshold 300 gives what binarising it once gives. -/
theorem Gray2BW_idempotent_witness :
    sampleImage.EightBit ∧
    Gray2BW (Gray2BW sampleImage 300) 300 = Gray2BW sampleImage 300 :=
  ⟨by decide, Gray2BW_idempotent sampleImage 300 (by decide)⟩

end ColoringBookUpscaler
